import Mathlib

/-!
# Verification of the semitone csproj core

Shallow embedding of the cheerio-based MSBuild project editor:
the indentation detector, tree walker, whitespace trimmers
(src/internal/utils.ts), and the Csproj document model with
addItem / removeItem / prettify / serialize (src/internal/csproj.ts).

Strings are modelled as lists of characters.  The XML tree mirrors the
domhandler node model restricted to the node kinds the program produces
and inspects: text nodes, directive (processing-instruction) nodes, and
tag (element) nodes with an ordered attribute list.
-/

namespace Semitone

/-- Characters treated as whitespace by the JavaScript string trim
operation (the ECMAScript WhiteSpace and LineTerminator sets; the
code points actually reachable in manifests are the ASCII ones). -/
def jsWs (c : Char) : Bool :=
  decide (c = ' ') || decide (c = '\t') || decide (c = '\n') ||
  decide (c = '\r') || decide (c = '\x0b') || decide (c = '\x0c') ||
  decide (c.val = 160) || decide (c.val = 0xfeff) ||
  decide (c.val = 0x1680) || (decide (0x2000 ≤ c.val) && decide (c.val ≤ 0x200a)) ||
  decide (c.val = 0x2028) || decide (c.val = 0x2029) ||
  decide (c.val = 0x202f) || decide (c.val = 0x205f) || decide (c.val = 0x3000)

/-- Model of the JavaScript test `s.trim() === ""`: every character of
the string is whitespace. -/
def wsOnly (s : List Char) : Bool := s.all jsWs

/-- The XML tree: text nodes, directive (processing instruction) nodes
and element nodes, as produced by htmlparser2 in xml mode and consumed
by the project model. -/
inductive XNode where
  | text (data : List Char)
  | directive (data : List Char)
  | tag (name : List Char) (attrs : List (List Char × List Char))
      (children : List XNode)
deriving Repr

mutual

/-- Boolean structural equality of nodes. -/
def beqN : XNode → XNode → Bool
  | .text d, .text e => d = e
  | .directive d, .directive e => d = e
  | .tag n a c, .tag m b d => n = m ∧ a = b ∧ beqL c d
  | _, _ => false

/-- Boolean structural equality of node lists. -/
def beqL : List XNode → List XNode → Bool
  | [], [] => true
  | x :: xs, y :: ys => beqN x y ∧ beqL xs ys
  | _, _ => false

end

mutual

theorem beqN_iff : ∀ a b : XNode, beqN a b = true ↔ a = b
  | .text _, .text _ => by simp [beqN]
  | .text _, .directive _ => by simp [beqN]
  | .text _, .tag _ _ _ => by simp [beqN]
  | .directive _, .text _ => by simp [beqN]
  | .directive _, .directive _ => by simp [beqN]
  | .directive _, .tag _ _ _ => by simp [beqN]
  | .tag _ _ _, .text _ => by simp [beqN]
  | .tag _ _ _, .directive _ => by simp [beqN]
  | .tag _ _ c, .tag _ _ d => by simp [beqN, beqL_iff c d]

theorem beqL_iff : ∀ a b : List XNode, beqL a b = true ↔ a = b
  | [], [] => by simp [beqL]
  | [], _ :: _ => by simp [beqL]
  | _ :: _, [] => by simp [beqL]
  | x :: xs, y :: ys => by simp [beqL, beqN_iff x y, beqL_iff xs ys]

end

instance : DecidableEq XNode := fun a b =>
  decidable_of_iff (beqN a b = true) (beqN_iff a b)

/-- An XML document is the list of top-level nodes (the children of the
domhandler root). -/
abbrev XDoc := List XNode

namespace XNode

/-- A node is an element (ElementType.Tag). -/
def isTag : XNode → Bool
  | .tag _ _ _ => true
  | _ => false

/-- Model of utils.isWhitespace: a Text node whose data trims to the
empty string. -/
def isWsText : XNode → Bool
  | .text d => wsOnly d
  | _ => false

end XNode

mutual

/-- The data of every text node in the subtree of one node, in the
depth-first document order produced by utils.getNodes. -/
def textsOfN : XNode → List (List Char)
  | .text d => [d]
  | .directive _ => []
  | .tag _ _ ch => textsOfL ch

/-- The data of every text node of a node list, depth-first. -/
def textsOfL : List XNode → List (List Char)
  | [] => []
  | n :: rest => textsOfN n ++ textsOfL rest

end

/-- The indentation descriptor returned by utils.detectIndent. -/
structure Indent where
  nl : List Char
  ws : List Char
deriving DecidableEq, Repr

/-- Model of the JavaScript expression second.replace(first, "") for a
plain (non-regex) pattern: remove the first occurrence of pat from s;
if pat does not occur, or pat is empty, s is unchanged. -/
def removeFirstOcc (pat : List Char) : List Char → List Char
  | [] => []
  | c :: rest =>
    if pat.isPrefixOf (c :: rest) ∧ pat ≠ [] then
      (c :: rest).drop pat.length
    else
      c :: removeFirstOcc pat rest

/-- JavaScript String.replace(pat, "") with a plain string pattern. -/
def jsReplaceEmpty (s pat : List Char) : List Char :=
  if pat = [] then s else removeFirstOcc pat s

/-- Model of utils.detectIndent: inspect the first two text nodes of the
document in depth-first order and derive the newline and per-level
whitespace strings. -/
def detectIndent (doc : XDoc) : Indent :=
  match textsOfL doc with
  | [] => ⟨[], []⟩
  | [first] =>
    if ¬ wsOnly first then ⟨[], []⟩ else ⟨first, [' ', ' ']⟩
  | first :: second :: _ =>
    if ¬ wsOnly first then ⟨[], []⟩
    else if second = first ∨ ¬ wsOnly second then ⟨first, [' ', ' ']⟩
    else ⟨first, jsReplaceEmpty second first⟩

/-! ## Size measure for nested recursion -/

mutual

/-- Size of a node, for termination measures. -/
def szN : XNode → Nat
  | .text _ => 1
  | .directive _ => 1
  | .tag _ _ ch => 2 + szL ch

/-- Size of a node list. -/
def szL : List XNode → Nat
  | [] => 0
  | x :: xs => szN x + szL xs

end

theorem szN_pos : ∀ n : XNode, 0 < szN n
  | .text _ => by simp [szN]
  | .directive _ => by simp [szN]
  | .tag _ _ _ => by simp [szN]

theorem szL_append (a b : List XNode) : szL (a ++ b) = szL a + szL b := by
  induction a with
  | nil => simp [szL]
  | cons x xs ih => simp [szL, ih]; omega

/-! ## Whitespace trimmers and prettify -/

/-- Model of utils.trimEnd: delete the trailing run of whitespace-only
text children (scanning from the last child backward, stopping at the
first non-whitespace child). -/
def dropTrailWs : List XNode → List XNode
  | [] => []
  | x :: xs =>
    match dropTrailWs xs with
    | [] => if x.isWsText then [] else [x]
    | r => x :: r

theorem szL_dropTrailWs_le (l : List XNode) : szL (dropTrailWs l) ≤ szL l := by
  induction l with
  | nil => simp [dropTrailWs]
  | cons x xs ih =>
    simp only [dropTrailWs]
    cases h : dropTrailWs xs with
    | nil =>
      have hx := szN_pos x
      by_cases hw : x.isWsText <;> simp [hw, szL] <;> omega
    | cons y r =>
      rw [h] at ih
      have : szN y + szL r ≤ szL xs := by simpa [szL] using ih
      simp only [szL]
      omega

theorem szL_filter_le (p : XNode → Bool) (l : List XNode) :
    szL (l.filter p) ≤ szL l := by
  induction l with
  | nil => simp
  | cons x xs ih =>
    have hx := szN_pos x
    by_cases hp : p x <;> simp [hp, szL] <;> omega

/-- ws.repeat(d): the whitespace unit repeated d times. -/
def repChars (s : List Char) (d : Nat) : List Char :=
  (List.replicate d s).flatten

/-- The indentation text inserted before a tag at depth d:
newline ++ whitespace.repeat(d). -/
def indentStr (i : Indent) (d : Nat) : List Char :=
  i.nl ++ repChars i.ws d

/-- Whether a forest contains an element among the descendants of its
parent (the CSS test :has(*)).  Since text and directive nodes have no
children, an element occurs in the subtree below a node exactly when
one of the direct children is an element. -/
def hasElemAmong (ch : List XNode) : Bool := ch.any XNode.isTag

/-- The node list inside a tag at depth d right before its children are
traversed by prettify: trailing whitespace children removed (trimEnd),
and, when the whitespace unit is nonempty and an element child remains,
the closing indentation text appended. -/
def childPrep (i : Indent) (d : Nat) (ch : List XNode) : List XNode :=
  let base := dropTrailWs ch
  base ++ (if i.ws ≠ [] ∧ hasElemAmong base then [.text (indentStr i d)] else [])

theorem szL_childPrep_lt (i : Indent) (d : Nat) (ch : List XNode) :
    szL (childPrep i d ch) < 2 + szL ch := by
  have h1 := szL_dropTrailWs_le ch
  unfold childPrep
  by_cases h : i.ws ≠ [] ∧ hasElemAmong (dropTrailWs ch)
  · simp [h, szL_append, szL, szN]; omega
  · simp [h, szL_append, szL]; omega

/-- The text inserted immediately before each tag at depth d, when the
whitespace unit is nonempty. -/
def preTag (i : Indent) (d : Nat) : List XNode :=
  if i.ws ≠ [] then [.text (indentStr i d)] else []

/-- Functional model of the main loop of Csproj.prettify over a sibling
list at depth d, recursing on an explicit size budget.  For every tag
in document order the loop removes an immediately preceding
whitespace-only text sibling (trimBefore) and the trailing
whitespace-only text children (trimEnd), inserts the indentation text
before the tag, and appends the closing indentation inside the tag when
an element child remains; the closing text then takes part in the
traversal of the children, where it is yielded as a plain text node.
Text and directive nodes are left alone. -/
def prettyListF : Nat → Indent → Nat → List XNode → List XNode
  | 0, _, _, _ => []
  | _ + 1, _, _, [] => []
  | fuel + 1, i, d, .text t :: .tag n a ch :: rest =>
    if wsOnly t then
      prettyListF fuel i d (.tag n a ch :: rest)
    else
      .text t :: prettyListF fuel i d (.tag n a ch :: rest)
  | fuel + 1, i, d, .text t :: rest => .text t :: prettyListF fuel i d rest
  | fuel + 1, i, d, .directive s :: rest =>
    .directive s :: prettyListF fuel i d rest
  | fuel + 1, i, d, .tag n a ch :: rest =>
    preTag i d ++
      .tag n a (prettyListF fuel i (d + 1) (childPrep i d ch)) ::
        prettyListF fuel i d rest

/-- The prettify loop with a budget always sufficient for the list. -/
def prettyList (i : Indent) (d : Nat) (l : List XNode) : List XNode :=
  prettyListF (szL l + 1) i d l

theorem prettyListF_fuel_irrel :
    ∀ f1 : Nat, ∀ f2 : Nat, ∀ i d l, szL l < f1 → szL l < f2 →
      prettyListF f1 i d l = prettyListF f2 i d l := by
  intro f1
  induction f1 with
  | zero => intro f2 i d l h1 h2; omega
  | succ f1 ih =>
    intro f2 i d l h1 h2
    cases f2 with
    | zero => omega
    | succ f2 =>
      match l with
      | [] => rfl
      | .text t :: .tag n a ch :: rest =>
        have hs : szL (XNode.tag n a ch :: rest) < f1 := by
          simp only [szL, szN] at h1 ⊢; omega
        have hs2 : szL (XNode.tag n a ch :: rest) < f2 := by
          simp only [szL, szN] at h2 ⊢; omega
        rw [prettyListF, prettyListF]
        rw [ih f2 i d _ hs hs2]
      | .text t :: [] =>
        have hs : szL ([] : List XNode) < f1 := by
          simp only [szL, szN] at h1 ⊢; omega
        have hs2 : szL ([] : List XNode) < f2 := by
          simp only [szL, szN] at h2 ⊢; omega
        show XNode.text t :: prettyListF f1 i d [] =
          XNode.text t :: prettyListF f2 i d []
        rw [ih f2 i d _ hs hs2]
      | .text t :: .text t2 :: rest =>
        have hs : szL (XNode.text t2 :: rest) < f1 := by
          simp only [szL, szN] at h1 ⊢; omega
        have hs2 : szL (XNode.text t2 :: rest) < f2 := by
          simp only [szL, szN] at h2 ⊢; omega
        show XNode.text t :: prettyListF f1 i d (XNode.text t2 :: rest) =
          XNode.text t :: prettyListF f2 i d (XNode.text t2 :: rest)
        rw [ih f2 i d _ hs hs2]
      | .text t :: .directive s :: rest =>
        have hs : szL (XNode.directive s :: rest) < f1 := by
          simp only [szL, szN] at h1 ⊢; omega
        have hs2 : szL (XNode.directive s :: rest) < f2 := by
          simp only [szL, szN] at h2 ⊢; omega
        show XNode.text t :: prettyListF f1 i d (XNode.directive s :: rest) =
          XNode.text t :: prettyListF f2 i d (XNode.directive s :: rest)
        rw [ih f2 i d _ hs hs2]
      | .directive s :: rest =>
        have hs : szL rest < f1 := by simp only [szL, szN] at h1 ⊢; omega
        have hs2 : szL rest < f2 := by simp only [szL, szN] at h2 ⊢; omega
        show XNode.directive s :: prettyListF f1 i d rest =
          XNode.directive s :: prettyListF f2 i d rest
        rw [ih f2 i d _ hs hs2]
      | .tag n a ch :: rest =>
        have hch := szL_childPrep_lt i d ch
        have hs : szL (childPrep i d ch) < f1 := by
          simp only [szL, szN] at h1; omega
        have hs2 : szL (childPrep i d ch) < f2 := by
          simp only [szL, szN] at h2; omega
        have hr : szL rest < f1 := by simp only [szL, szN] at h1; omega
        have hr2 : szL rest < f2 := by simp only [szL, szN] at h2; omega
        rw [prettyListF, prettyListF, ih f2 i (d + 1) _ hs hs2,
          ih f2 i d _ hr hr2]

theorem prettyListF_eq (fuel : Nat) (i : Indent) (d : Nat) (l : List XNode)
    (h : szL l < fuel) : prettyListF fuel i d l = prettyList i d l :=
  prettyListF_fuel_irrel fuel (szL l + 1) i d l h (Nat.lt_succ_self _)

theorem prettyList_nil (i : Indent) (d : Nat) : prettyList i d [] = [] := rfl

theorem prettyList_text_tag (i : Indent) (d : Nat) (t n : List Char)
    (a : List (List Char × List Char)) (ch rest : List XNode) :
    prettyList i d (.text t :: .tag n a ch :: rest) =
      if wsOnly t then prettyList i d (.tag n a ch :: rest)
      else .text t :: prettyList i d (.tag n a ch :: rest) := by
  have hs : szL (XNode.tag n a ch :: rest) <
      szL (XNode.text t :: XNode.tag n a ch :: rest) := by
    simp only [szL, szN]; omega
  show (if wsOnly t then
      prettyListF (szL (XNode.text t :: XNode.tag n a ch :: rest)) i d
        (XNode.tag n a ch :: rest)
    else XNode.text t ::
      prettyListF (szL (XNode.text t :: XNode.tag n a ch :: rest)) i d
        (XNode.tag n a ch :: rest)) = _
  rw [prettyListF_eq _ _ _ _ hs]

theorem prettyList_text (i : Indent) (d : Nat) (t : List Char)
    (rest : List XNode) (hne : ∀ n a ch rest2, rest ≠ .tag n a ch :: rest2) :
    prettyList i d (.text t :: rest) = .text t :: prettyList i d rest := by
  match rest with
  | [] => rfl
  | .text t2 :: rest2 =>
    have hs : szL (XNode.text t2 :: rest2) <
        szL (XNode.text t :: XNode.text t2 :: rest2) := by
      simp only [szL, szN]; omega
    show XNode.text t ::
        prettyListF (szL (XNode.text t :: XNode.text t2 :: rest2)) i d
          (XNode.text t2 :: rest2) = _
    rw [prettyListF_eq _ _ _ _ hs]
  | .directive s :: rest2 =>
    have hs : szL (XNode.directive s :: rest2) <
        szL (XNode.text t :: XNode.directive s :: rest2) := by
      simp only [szL, szN]; omega
    show XNode.text t ::
        prettyListF (szL (XNode.text t :: XNode.directive s :: rest2)) i d
          (XNode.directive s :: rest2) = _
    rw [prettyListF_eq _ _ _ _ hs]
  | .tag n a ch :: rest2 => exact absurd rfl (hne n a ch rest2)

theorem prettyList_directive (i : Indent) (d : Nat) (s : List Char)
    (rest : List XNode) :
    prettyList i d (.directive s :: rest) = .directive s :: prettyList i d rest := by
  have hs : szL rest < szL (XNode.directive s :: rest) := by
    simp only [szL, szN]; omega
  show XNode.directive s ::
      prettyListF (szL (XNode.directive s :: rest)) i d rest = _
  rw [prettyListF_eq _ _ _ _ hs]

theorem prettyList_tag (i : Indent) (d : Nat) (n : List Char)
    (a : List (List Char × List Char)) (ch rest : List XNode) :
    prettyList i d (.tag n a ch :: rest) =
      preTag i d ++
        .tag n a (prettyList i (d + 1) (childPrep i d ch)) ::
          prettyList i d rest := by
  have hch := szL_childPrep_lt i d ch
  have hs : szL (childPrep i d ch) < szL (XNode.tag n a ch :: rest) := by
    simp only [szL, szN]; omega
  have hr : szL rest < szL (XNode.tag n a ch :: rest) := by
    simp only [szL, szN]; omega
  show preTag i d ++
      XNode.tag n a
        (prettyListF (szL (XNode.tag n a ch :: rest)) i (d + 1)
          (childPrep i d ch)) ::
        prettyListF (szL (XNode.tag n a ch :: rest)) i d rest = _
  rw [prettyListF_eq _ _ _ _ hs, prettyListF_eq _ _ _ _ hr]

/-- The tag name of the root element. -/
def projChars : List Char := ['P', 'r', 'o', 'j', 'e', 'c', 't']

/-- The tag name of item containers. -/
def igChars : List Char := ['I', 't', 'e', 'm', 'G', 'r', 'o', 'u', 'p']

/-- The attribute carrying an item's path. -/
def incChars : List Char := ['I', 'n', 'c', 'l', 'u', 'd', 'e']

mutual

/-- Whether a node subtree contains an element named Project. -/
def hasProjN : XNode → Bool
  | .tag n _ ch => decide (n = projChars) || hasProjL ch
  | _ => false

/-- Whether a forest contains an element named Project. -/
def hasProjL : List XNode → Bool
  | [] => false
  | x :: rest => hasProjN x || hasProjL rest

end

mutual

/-- Whether every element named Project in a subtree has zero element
children (the children().length === 0 test of prettify, over the whole
selection). -/
def projsElemFreeN : XNode → Bool
  | .tag n _ ch => (decide (n ≠ projChars) || !hasElemAmong ch) && projsElemFreeL ch
  | _ => true

/-- Forest version of projsElemFreeN. -/
def projsElemFreeL : List XNode → Bool
  | [] => true
  | x :: rest => projsElemFreeN x && projsElemFreeL rest

end

mutual

/-- Model of project.empty(): remove every child of every element named
Project. -/
def emptyProjN : XNode → XNode
  | .tag n a ch => if n = projChars then .tag n a [] else .tag n a (emptyProjL ch)
  | x => x

/-- Forest version of emptyProjN. -/
def emptyProjL : List XNode → List XNode
  | [] => []
  | x :: rest => emptyProjN x :: emptyProjL rest

end

/-- Remove the head of a list when it is a whitespace-only text node
(the action of utils.trimAfter on the following sibling). -/
def dropLeadWs : List XNode → List XNode
  | [] => []
  | x :: xs => if x.isWsText then xs else x :: xs

/-- Whether a node is an element named Project. -/
def isProjTag : XNode → Bool
  | .tag n _ _ => n = projChars
  | _ => false

mutual

/-- Search for the first element named Project inside a node, trimming
the whitespace text that follows it; the flag reports success. -/
def trimAfterProjN : XNode → XNode × Bool
  | .tag n a ch =>
    match trimAfterProjL ch with
    | (ch2, f) => (.tag n a ch2, f)
  | .text t => (.text t, false)
  | .directive s => (.directive s, false)

/-- Model of trimAfter(project[0]): find the first element named
Project in depth-first document order and delete its immediately
following sibling when that sibling is a whitespace-only text node.
The boolean reports whether the element was found. -/
def trimAfterProjL : List XNode → List XNode × Bool
  | [] => ([], false)
  | x :: rest =>
    if isProjTag x then (x :: dropLeadWs rest, true)
    else
      match trimAfterProjN x with
      | (x2, true) => (x2 :: rest, true)
      | (_, false) =>
        match trimAfterProjL rest with
        | (rest2, f) => (x :: rest2, f)

end

mutual

/-- Insert a newline text node after every element named Project in
the subtree of one node. -/
def insNlN (nl : List Char) : XNode → XNode
  | .tag n a ch => .tag n a (insNlL nl ch)
  | .text t => .text t
  | .directive s => .directive s

/-- Model of insertAfter: insert a text node holding the newline after
every element named Project. -/
def insNlL (nl : List Char) : List XNode → List XNode
  | [] => []
  | x :: rest =>
    if isProjTag x then insNlN nl x :: .text nl :: insNlL nl rest
    else insNlN nl x :: insNlL nl rest

end

/-- Model of Csproj.prettify with indentation descriptor i: run the
reformatting loop, then clear every Project element when the selection
has no element children, trim the whitespace following the first
Project element and insert a single newline text node after every
Project element.  When the document has no Project element at all the
source dereferences an undefined selection entry and throws; this is
modelled by returning none. -/
def prettifyF (i : Indent) (doc : XDoc) : Option XDoc :=
  let cs1 := prettyList i 0 doc
  if hasProjL cs1 then
    let cs2 := if projsElemFreeL cs1 then emptyProjL cs1 else cs1
    some (insNlL i.nl (trimAfterProjL cs2).1)
  else none

/-! ## Item operations -/

/-- The value of a named attribute: the first binding wins, as in the
DOM attribute map. -/
def getAttr (attrs : List (List Char × List Char)) (name : List Char) :
    Option (List Char) :=
  (attrs.find? (fun p => p.1 = name)).map (·.2)

mutual

/-- Whether a node or one of its descendants is an element named t. -/
def descHelperN (t : List Char) : XNode → Bool
  | .tag n _ ch => decide (n = t) || descHelperL t ch
  | _ => false

/-- Whether a forest contains an element named t. -/
def descHelperL (t : List Char) : List XNode → Bool
  | [] => false
  | x :: rest => descHelperN t x || descHelperL t rest

end

/-- Whether a node is an element owning a descendant element named t
(the CSS test :has(t), which inspects descendants, not the node
itself). -/
def hasElemDescNamed (t : List Char) : XNode → Bool
  | .tag _ _ ch => descHelperL t ch
  | _ => false

mutual

/-- Append the item to the last matching ItemGroup in the subtree of
one node, in depth-first document order: candidates inside the
children come after the node itself, so they are preferred. -/
def addLastN (t : List Char) (item : XNode) : XNode → Option XNode
  | .tag n a ch =>
    match addLastL t item ch with
    | some ch2 => some (.tag n a ch2)
    | none =>
      if n = igChars ∧ descHelperL t ch then
        some (.tag n a (ch ++ [item]))
      else none
  | .text _ => none
  | .directive _ => none

/-- Append the item element to the last element (in depth-first
document order) that is an ItemGroup with a descendant element named t;
none when no such element exists.  Later siblings come after a node
and its subtree, so they are preferred. -/
def addLastL (t : List Char) (item : XNode) : List XNode → Option (List XNode)
  | [] => none
  | x :: rest =>
    match addLastL t item rest with
    | some rest2 => some (x :: rest2)
    | none =>
      match addLastN t item x with
      | some x2 => some (x2 :: rest)
      | none => none

end

mutual

/-- Append a fresh ItemGroup holding the item inside one node, at the
end of the children of every element named Project. -/
def appendGroupN (grp : XNode) : XNode → XNode
  | .tag n a ch =>
    if n = projChars then .tag n a (appendGroupL grp ch ++ [grp])
    else .tag n a (appendGroupL grp ch)
  | .text t => .text t
  | .directive s => .directive s

/-- Append a fresh ItemGroup holding the item to every element named
Project (the appendTo of addItem; with several Project elements the
content is cloned for each). -/
def appendGroupL (grp : XNode) : List XNode → List XNode
  | [] => []
  | x :: rest => appendGroupN grp x :: appendGroupL grp rest

end

/-- Model of Csproj.addItem: build the item element with the Include
attribute set to the relative path, append it to the last ItemGroup
with a descendant named t, and otherwise append a new ItemGroup holding
it to the Project element.  When neither exists the new nodes stay
detached and the document is unchanged. -/
def addItem (t rel : List Char) (doc : XDoc) : XDoc :=
  let item : XNode := .tag t [(incChars, rel)] []
  match addLastL t item doc with
  | some doc2 => doc2
  | none => appendGroupL (.tag igChars [] [item]) doc

/-- Whether an element matches the selector ItemGroup > *[Include=rel]
as a child of an ItemGroup: it is an element whose Include attribute
equals the relative path exactly. -/
def isMatchElem (rel : List Char) : XNode → Bool
  | .tag _ a _ => getAttr a incChars = some rel
  | _ => false

mutual

/-- Whether some element of the forest is a child of an ItemGroup
element and carries Include=rel (the match set of removeItem is
nonempty). -/
def hasMatchN (rel : List Char) : XNode → Bool
  | .tag n _ ch =>
    (decide (n = igChars) && ch.any (isMatchElem rel)) || hasMatchL rel ch
  | _ => false

/-- Forest version of hasMatchN. -/
def hasMatchL (rel : List Char) : List XNode → Bool
  | [] => false
  | x :: rest => hasMatchN rel x || hasMatchL rel rest

end

mutual

/-- Deletion pass of removeItem inside one node: the children are
processed with the flag recording whether this node is an ItemGroup. -/
def delMN (rel : List Char) : XNode → XNode
  | .tag n a ch => .tag n a (delML rel (decide (n = igChars)) ch)
  | .text t => .text t
  | .directive s => .directive s

/-- Deletion pass of removeItem over a sibling list: when the parent
is an ItemGroup, every element child whose Include attribute equals
rel is dropped together with its subtree (items.remove()); all other
nodes are kept and processed recursively. -/
def delML (rel : List Char) (pig : Bool) : List XNode → List XNode
  | [] => []
  | x :: rest =>
    if pig && isMatchElem rel x then delML rel pig rest
    else delMN rel x :: delML rel pig rest

end

/-- The deletion pass on the whole document; the root is not an
ItemGroup. -/
def delMatchesL (rel : List Char) (l : List XNode) : List XNode :=
  delML rel false l

/-- An ItemGroup element with no element descendant: the match of the
pruning selector ItemGroup:not(:has(*)).  Since text and directive
nodes have no children, having no element descendant is the same as
having no element child. -/
def isEmptyIG : XNode → Bool
  | .tag n _ ch => decide (n = igChars) && !hasElemAmong ch
  | _ => false

mutual

/-- Pruning inside one node. -/
def pruneN : XNode → XNode
  | .tag n a ch => .tag n a (pruneL ch)
  | .text t => .text t
  | .directive s => .directive s

/-- Model of the pruning pass of removeItem: the selection
ItemGroup:not(:has(*)) is taken in one snapshot and every selected
element removed, so an ItemGroup is deleted exactly when it had no
element descendant at that moment; each condition is evaluated against
the original subtrees. -/
def pruneL : List XNode → List XNode
  | [] => []
  | x :: rest =>
    if isEmptyIG x then pruneL rest
    else pruneN x :: pruneL rest

end

/-- Model of Csproj.removeItem: the boolean is items.length > 0 for the
match set computed on the original document; the resulting document has
the matching items deleted and the empty ItemGroup elements pruned. -/
def removeItem (rel : List Char) (doc : XDoc) : Bool × XDoc :=
  (hasMatchL rel doc, pruneL (delMatchesL rel doc))

/-! ## Serialization -/

/-- The XML escaping applied by the serializer to text data and
attribute values (the five predefined entities; numeric escaping of
non-ASCII code points is outside the well-formed fragment considered
here). -/
def escChar (c : Char) : List Char :=
  if c = '&' then ['&', 'a', 'm', 'p', ';']
  else if c = '<' then ['&', 'l', 't', ';']
  else if c = '>' then ['&', 'g', 't', ';']
  else if c = '"' then ['&', 'q', 'u', 'o', 't', ';']
  else if c = '\'' then ['&', 'a', 'p', 'o', 's', ';']
  else [c]

/-- encodeXML over a whole string. -/
def encodeXML (s : List Char) : List Char := s.flatMap escChar

/-- Attribute rendering: a space, the raw name, and the escaped value
in double quotes, in stored order. -/
def renderAttrs : List (List Char × List Char) → List Char
  | [] => []
  | (k, v) :: rest =>
    ' ' :: (k ++ '=' :: '"' :: encodeXML v ++ '"' :: renderAttrs rest)

mutual

/-- The xml-mode serializer of cheerio (dom-serializer with xmlMode):
text data is entity-escaped, a directive renders as its data between
angle brackets, an element with no children renders self-closing.  The
sp flag selects the variant that writes a space before the closing
slash, used to state what the post-serialization fix-up produces. -/
def renderN (sp : Bool) : XNode → List Char
  | .text d => encodeXML d
  | .directive d => '<' :: (d ++ ['>'])
  | .tag n a ch =>
    if ch.isEmpty then
      '<' :: (n ++ renderAttrs a ++ (if sp then [' ', '/', '>'] else ['/', '>']))
    else
      '<' :: (n ++ renderAttrs a ++ '>' :: renderL sp ch) ++
        '<' :: '/' :: (n ++ ['>'])

/-- Serialize a node list by concatenation. -/
def renderL (sp : Bool) : List XNode → List Char
  | [] => []
  | x :: rest => renderN sp x ++ renderL sp rest

end

/-- A JavaScript line terminator, the positions where $ matches in a
multiline regex besides the end of input. -/
def isTerm (c : Char) : Bool :=
  decide (c = '\n') || decide (c = '\r') ||
  decide (c.val = 0x2028) || decide (c.val = 0x2029)

/-- Whether a position is at end of line: end of input or a line
terminator next. -/
def atLineEnd : List Char → Bool
  | [] => true
  | c :: _ => isTerm c

/-- Model of the final replace on RE_SELF_CLOSING_TAG, a global
multiline regex matching a slash, greater-than pair at end of line:
every occurrence of the pair standing immediately before a line
terminator or the end of the string gains a space in front; the scan
resumes after each match. -/
def fixup : List Char → List Char
  | [] => []
  | [c] => [c]
  | c1 :: c2 :: rest =>
    if c1 = '/' ∧ c2 = '>' then
      (if atLineEnd rest then [' ', '/', '>'] else ['/', '>']) ++ fixup rest
    else c1 :: fixup (c2 :: rest)

/-- Model of Csproj.serialize for a document whose cached indentation
descriptor is i: prettify, render, then the self-closing fix-up. -/
def serializeF (i : Indent) (doc : XDoc) : Option (List Char) :=
  (prettifyF i doc).map (fun d => fixup (renderL false d))

/-- Serialization right after Csproj.open: the cached indentation
descriptor is the one detected on the freshly parsed tree. -/
def serializeOpen (doc : XDoc) : Option (List Char) :=
  serializeF (detectIndent doc) doc

/-! ## Claim C3: the indentation detector contract -/

/-- Removal of the leading occurrence of pat in s, as the claim words
it: when s begins with pat that occurrence is removed, otherwise s is
returned unchanged. -/
def stripLeadOcc (pat s : List Char) : List Char :=
  if pat.isPrefixOf s then s.drop pat.length else s

/-- The detector behaviour exactly as claim C3 states it, with the
leading-occurrence reading of the third case. -/
def detectSpecC3 (doc : XDoc) : Indent :=
  match textsOfL doc with
  | [] => ⟨[], []⟩
  | [f] => if ¬ wsOnly f then ⟨[], []⟩ else ⟨f, [' ', ' ']⟩
  | f :: s :: _ =>
    if ¬ wsOnly f then ⟨[], []⟩
    else if s = f ∨ ¬ wsOnly s then ⟨f, [' ', ' ']⟩
    else ⟨f, stripLeadOcc f s⟩

/-- The index of the first occurrence of pat in s, found by scanning
candidate positions from the left. -/
def firstOccIdx (pat s : List Char) : Option Nat :=
  (List.range (s.length + 1)).find? (fun k => pat.isPrefixOf (s.drop k))

/-- Independent description of removing the first occurrence of pat
anywhere in s: locate the least starting index of a match and splice
the match out, leaving s unchanged when there is none. -/
def removeOccSpec (pat s : List Char) : List Char :=
  match firstOccIdx pat s with
  | some k => s.take k ++ s.drop (k + pat.length)
  | none => s

/-- The detector behaviour with the third case amended: the first
occurrence of the newline string anywhere in the second whitespace run
is removed, not only a leading one. -/
def detectSpecC3Fix (doc : XDoc) : Indent :=
  match textsOfL doc with
  | [] => ⟨[], []⟩
  | [f] => if ¬ wsOnly f then ⟨[], []⟩ else ⟨f, [' ', ' ']⟩
  | f :: s :: _ =>
    if ¬ wsOnly f then ⟨[], []⟩
    else if s = f ∨ ¬ wsOnly s then ⟨f, [' ', ' ']⟩
    else ⟨f, removeOccSpec f s⟩

/-- Document whose first two text nodes are a single space and a
newline followed by a space: the second run contains the first but does
not begin with it. -/
def docC3 : XDoc :=
  [.tag projChars []
    [.text [' '],
     .tag ['a'] [] [.text ['\n', ' ']]]]

theorem removeOccSpec_nil_pat (s : List Char) : removeOccSpec [] s = s := by
  simp [removeOccSpec, firstOccIdx, List.range_succ_eq_map, List.isPrefixOf]

theorem removeFirstOcc_eq_spec (pat : List Char) (hp : pat ≠ []) :
    ∀ s, removeFirstOcc pat s = removeOccSpec pat s := by
  intro s
  induction s with
  | nil =>
    have h0 : pat.isPrefixOf ([] : List Char) = false := by
      cases pat with
      | nil => exact absurd rfl hp
      | cons a l => rfl
    simp [removeFirstOcc, removeOccSpec, firstOccIdx, List.range_succ_eq_map, h0]
  | cons c rest ih =>
    by_cases hpre : pat.isPrefixOf (c :: rest)
    · simp only [removeFirstOcc, hpre, hp, and_true, if_pos, ne_eq,
        not_false_eq_true]
      have hfind : firstOccIdx pat (c :: rest) = some 0 := by
        simp [firstOccIdx, List.range_succ_eq_map, List.find?_cons, hpre]
      simp [removeOccSpec, hfind]
    · have hpre2 : pat.isPrefixOf (c :: rest) = false :=
        Bool.eq_false_iff.mpr hpre
      have hshift : firstOccIdx pat (c :: rest) =
          (firstOccIdx pat rest).map (· + 1) := by
        simp only [firstOccIdx, List.length_cons]
        rw [List.range_succ_eq_map]
        simp only [List.find?_cons, List.drop_zero]
        rw [hpre2]
        rw [List.find?_map]
        rfl
      simp only [removeFirstOcc, hpre2, Bool.false_eq_true, false_and,
        if_neg, not_false_eq_true]
      rw [ih]
      simp only [removeOccSpec, hshift]
      cases hfo : firstOccIdx pat rest with
      | none => simp
      | some k =>
        have harith : k + 1 + pat.length = (k + pat.length) + 1 := by omega
        simp [harith]

theorem jsReplaceEmpty_eq_spec (s pat : List Char) :
    jsReplaceEmpty s pat = removeOccSpec pat s := by
  by_cases hp : pat = []
  · subst hp
    simp [jsReplaceEmpty, removeOccSpec_nil_pat]
  · simp [jsReplaceEmpty, hp, removeFirstOcc_eq_spec pat hp s]

/-- C3, counterexample: on a document whose first two text nodes are
a single space and a newline-space run, the detector removes the inner
occurrence of the first run from the second, while the claim, read as
stripping only a leading occurrence, keeps the second run intact. -/
theorem detectIndent_claim_counterexample :
    detectIndent docC3 ≠ detectSpecC3 docC3 := by decide

/-- C3, amended: the detector returns the empty descriptor when there
is no first text node or it is not whitespace-only; the first run with
the two-space default when there is no second run, the second equals
the first, or the second is not whitespace-only; and otherwise the
first run together with the second run with its first occurrence of
the first run, looking from the left anywhere in the string, removed
(the occurrence need not be leading). -/
theorem detectIndent_contract (doc : XDoc) :
    detectIndent doc = detectSpecC3Fix doc := by
  unfold detectIndent detectSpecC3Fix
  cases h : textsOfL doc with
  | nil => rfl
  | cons f rest =>
    cases rest with
    | nil => rfl
    | cons s rest2 =>
      by_cases h1 : wsOnly f
      · by_cases h2 : s = f ∨ wsOnly s = false
        · simp [h1, h2]
        · simp [h1, h2, jsReplaceEmpty_eq_spec]
      · simp [h1]

/-! ## Claims C5, C10, C6: removeItem semantics -/

mutual

/-- Every element of a subtree, in depth-first document order. -/
def allTagsN : XNode → List XNode
  | .tag n a ch => .tag n a ch :: allTagsL ch
  | _ => []

/-- Every element of a forest, in depth-first document order. -/
def allTagsL : List XNode → List XNode
  | [] => []
  | x :: rest => allTagsN x ++ allTagsL rest

end

/-- The match set of removeItem is nonempty: some ItemGroup element of
the document has a child element whose Include attribute equals the
relative path exactly. -/
def HasIncludeItem (rel : List Char) (doc : XDoc) : Prop :=
  ∃ a ch, XNode.tag igChars a ch ∈ allTagsL doc ∧ ∃ c ∈ ch, isMatchElem rel c

mutual

theorem hasMatchN_iff (rel : List Char) :
    ∀ x : XNode, hasMatchN rel x = true ↔
      ∃ a ch, XNode.tag igChars a ch ∈ allTagsN x ∧ ∃ c ∈ ch, isMatchElem rel c
  | .text _ => by simp [hasMatchN, allTagsN]
  | .directive _ => by simp [hasMatchN, allTagsN]
  | .tag n a ch => by
    simp only [hasMatchN, allTagsN, List.mem_cons, Bool.or_eq_true,
      Bool.and_eq_true, decide_eq_true_eq, List.any_eq_true,
      hasMatchL_iff rel ch]
    constructor
    · rintro (⟨rfl, c, hc, hm⟩ | ⟨a2, ch2, hmem, c, hc, hm⟩)
      · exact ⟨a, ch, Or.inl rfl, c, hc, hm⟩
      · exact ⟨a2, ch2, Or.inr hmem, c, hc, hm⟩
    · rintro ⟨a2, ch2, hmem | hmem, c, hc, hm⟩
      · cases hmem with
        | refl => exact Or.inl ⟨rfl, c, hc, hm⟩
      · exact Or.inr ⟨a2, ch2, hmem, c, hc, hm⟩

theorem hasMatchL_iff (rel : List Char) :
    ∀ l : List XNode, hasMatchL rel l = true ↔
      ∃ a ch, XNode.tag igChars a ch ∈ allTagsL l ∧ ∃ c ∈ ch, isMatchElem rel c
  | [] => by simp [hasMatchL, allTagsL]
  | x :: rest => by
    simp only [hasMatchL, Bool.or_eq_true, hasMatchN_iff rel x,
      hasMatchL_iff rel rest, allTagsL, List.mem_append]
    constructor
    · rintro (⟨a2, ch2, hmem, hc⟩ | ⟨a2, ch2, hmem, hc⟩)
      · exact ⟨a2, ch2, Or.inl hmem, hc⟩
      · exact ⟨a2, ch2, Or.inr hmem, hc⟩
    · rintro ⟨a2, ch2, hmem | hmem, hc⟩
      · exact Or.inl ⟨a2, ch2, hmem, hc⟩
      · exact Or.inr ⟨a2, ch2, hmem, hc⟩

end

/-- The deletion pass preserves the kind, name and attribute list of
every node it keeps. -/
theorem isMatchElem_delMN (rel : List Char) :
    ∀ x : XNode, isMatchElem rel (delMN rel x) = isMatchElem rel x
  | .text _ => rfl
  | .directive _ => rfl
  | .tag _ _ _ => rfl

/-- Children processed under an ItemGroup parent contain no matching
element afterwards. -/
theorem not_isMatch_mem_delML_true (rel : List Char) :
    ∀ l : List XNode, ∀ c2 ∈ delML rel true l, isMatchElem rel c2 = false := by
  intro l
  induction l with
  | nil => intro c2 h; simp [delML] at h
  | cons x rest ih =>
    intro c2 h
    rw [delML] at h
    by_cases hm : isMatchElem rel x
    · rw [if_pos (by simp [hm])] at h
      exact ih c2 h
    · rw [if_neg (by simp [hm])] at h
      rcases List.mem_cons.mp h with rfl | h2
      · rw [isMatchElem_delMN]
        simpa using hm
      · exact ih c2 h2

mutual

/-- After the deletion pass a node contains no ItemGroup child element
matching the path. -/
theorem hasMatchN_delMN (rel : List Char) :
    ∀ x : XNode, hasMatchN rel (delMN rel x) = false
  | .text _ => rfl
  | .directive _ => rfl
  | .tag n a ch => by
    rw [delMN, hasMatchN, Bool.or_eq_false_iff, Bool.and_eq_false_iff]
    refine ⟨?_, hasMatchL_delML rel (decide (n = igChars)) ch⟩
    by_cases hn : n = igChars
    · right
      rw [List.any_eq_false]
      intro c2 hc2
      rw [hn] at hc2
      simp [not_isMatch_mem_delML_true rel ch c2 (by simpa using hc2)]
    · left
      simp [hn]

/-- After the deletion pass a forest contains no ItemGroup child
element matching the path. -/
theorem hasMatchL_delML (rel : List Char) (pig : Bool) :
    ∀ l : List XNode, hasMatchL rel (delML rel pig l) = false
  | [] => rfl
  | x :: rest => by
    rw [delML]
    by_cases hc : pig && isMatchElem rel x
    · rw [if_pos hc]
      exact hasMatchL_delML rel pig rest
    · rw [if_neg hc, hasMatchL, Bool.or_eq_false_iff]
      exact ⟨hasMatchN_delMN rel x, hasMatchL_delML rel pig rest⟩

end

/-- Every node surviving the pruning pass is the pruning of a node of
the original list. -/
theorem mem_pruneL (l : List XNode) :
    ∀ c2 ∈ pruneL l, ∃ c ∈ l, c2 = pruneN c := by
  induction l with
  | nil => intro c2 h; simp [pruneL] at h
  | cons x rest ih =>
    intro c2 h
    rw [pruneL] at h
    by_cases he : isEmptyIG x
    · rw [if_pos he] at h
      obtain ⟨c, hc, rfl⟩ := ih c2 h
      exact ⟨c, List.mem_cons_of_mem _ hc, rfl⟩
    · rw [if_neg he] at h
      rcases List.mem_cons.mp h with rfl | h2
      · exact ⟨x, List.mem_cons_self _ _, rfl⟩
      · obtain ⟨c, hc, rfl⟩ := ih c2 h2
        exact ⟨c, List.mem_cons_of_mem _ hc, rfl⟩

/-- Pruning preserves the kind, name and attribute list of every node
it keeps. -/
theorem isMatchElem_pruneN (rel : List Char) :
    ∀ x : XNode, isMatchElem rel (pruneN x) = isMatchElem rel x
  | .text _ => rfl
  | .directive _ => rfl
  | .tag _ _ _ => rfl

mutual

/-- Pruning cannot create a match inside a node. -/
theorem hasMatchN_pruneN (rel : List Char) :
    ∀ x : XNode, hasMatchN rel x = false → hasMatchN rel (pruneN x) = false
  | .text _ => fun _ => rfl
  | .directive _ => fun _ => rfl
  | .tag n a ch => fun h => by
    rw [hasMatchN, Bool.or_eq_false_iff, Bool.and_eq_false_iff] at h
    rw [pruneN, hasMatchN, Bool.or_eq_false_iff, Bool.and_eq_false_iff]
    refine ⟨?_, hasMatchL_pruneL rel ch h.2⟩
    rcases h.1 with hn | hany
    · exact Or.inl hn
    · right
      rw [List.any_eq_false]
      intro c2 hc2
      obtain ⟨c, hc, rfl⟩ := mem_pruneL ch c2 hc2
      rw [List.any_eq_false] at hany
      intro hcon
      rw [isMatchElem_pruneN] at hcon
      exact hany c hc hcon

/-- Pruning cannot create a match inside a forest. -/
theorem hasMatchL_pruneL (rel : List Char) :
    ∀ l : List XNode, hasMatchL rel l = false → hasMatchL rel (pruneL l) = false
  | [] => fun _ => rfl
  | x :: rest => fun h => by
    rw [hasMatchL, Bool.or_eq_false_iff] at h
    rw [pruneL]
    by_cases he : isEmptyIG x
    · rw [if_pos he]
      exact hasMatchL_pruneL rel rest h.2
    · rw [if_neg he, hasMatchL, Bool.or_eq_false_iff]
      exact ⟨hasMatchN_pruneN rel x h.1, hasMatchL_pruneL rel rest h.2⟩

end

/-- C5, confirmed: removeItem is a total function returning a boolean,
so an absent item never raises; the boolean is true exactly when some
ItemGroup element has a child element whose Include attribute equals
the computed relative path, and afterwards no such element remains. -/
theorem removeItem_found_iff (rel : List Char) (doc : XDoc) :
    ((removeItem rel doc).1 = true ↔ HasIncludeItem rel doc) ∧
    hasMatchL rel (removeItem rel doc).2 = false := by
  constructor
  · exact hasMatchL_iff rel doc
  · exact hasMatchL_pruneL rel _ (hasMatchL_delML rel false doc)

/-- A forest without matches contains only nodes without matches. -/
theorem hasMatchN_of_mem (rel : List Char) :
    ∀ l : List XNode, hasMatchL rel l = false →
      ∀ c ∈ l, hasMatchN rel c = false := by
  intro l
  induction l with
  | nil => intro _ c hc; simp at hc
  | cons x rest ih =>
    intro h c hc
    rw [hasMatchL, Bool.or_eq_false_iff] at h
    rcases List.mem_cons.mp hc with rfl | h2
    · exact h.1
    · exact ih h.2 c h2

mutual

/-- Deleting nothing inside a node: when no ItemGroup child matches,
the deletion pass leaves the node unchanged. -/
theorem delMN_id (rel : List Char) :
    ∀ x : XNode, hasMatchN rel x = false → delMN rel x = x
  | .text _ => fun _ => rfl
  | .directive _ => fun _ => rfl
  | .tag n a ch => fun h => by
    rw [hasMatchN, Bool.or_eq_false_iff, Bool.and_eq_false_iff] at h
    rw [delMN]
    congr 1
    apply delML_id rel (decide (n = igChars)) ch
      (hasMatchN_of_mem rel ch h.2)
    intro hpig c hc
    rcases h.1 with hn | hany
    · rw [hpig] at hn
      exact absurd hn (by simp)
    · rw [List.any_eq_false] at hany
      exact Bool.eq_false_iff.mpr (hany c hc)

/-- Deleting nothing in a forest: when no node has an internal match
and, under an ItemGroup parent, no node itself matches, the deletion
pass is the identity. -/
theorem delML_id (rel : List Char) (pig : Bool) :
    ∀ l : List XNode, (∀ c ∈ l, hasMatchN rel c = false) →
      (pig = true → ∀ c ∈ l, isMatchElem rel c = false) →
      delML rel pig l = l
  | [] => fun _ _ => rfl
  | x :: rest => fun h1 h2 => by
    rw [delML]
    have hcond : (pig && isMatchElem rel x) = false := by
      cases pig with
      | false => rfl
      | true => simp [h2 rfl x (List.mem_cons_self _ _)]
    rw [if_neg (by simp [hcond]),
      delMN_id rel x (h1 x (List.mem_cons_self _ _)),
      delML_id rel pig rest
        (fun c hc => h1 c (List.mem_cons_of_mem _ hc))
        (fun hp c hc => h2 hp c (List.mem_cons_of_mem _ hc))]

end

/-- Deleting nothing: when no item matches, the deletion pass leaves
the document unchanged. -/
theorem delMatchesL_of_no_match (rel : List Char) (l : List XNode)
    (h : hasMatchL rel l = false) : delMatchesL rel l = l :=
  delML_id rel false l (hasMatchN_of_mem rel l h) (by intro hc; cases hc)

/-- C10, confirmed: removeItem runs the empty-group pruning pass even
when nothing matched, so a false return still prunes every ItemGroup
that has no element child, including ones already empty before the
call. -/
theorem removeItem_false_still_prunes (rel : List Char) (doc : XDoc)
    (h : hasMatchL rel doc = false) :
    removeItem rel doc = (false, pruneL doc) := by
  unfold removeItem
  rw [delMatchesL_of_no_match rel doc h, h]

/-- Document with one empty ItemGroup and no items. -/
def docEmptyIG : XDoc := [.tag projChars [] [.tag igChars [] []]]

theorem removeItem_false_still_prunes_witness :
    hasMatchL ['x'] docEmptyIG = false ∧
    removeItem ['x'] docEmptyIG = (false, pruneL docEmptyIG) ∧
    pruneL docEmptyIG ≠ docEmptyIG :=
  ⟨by decide, removeItem_false_still_prunes ['x'] docEmptyIG (by decide), by decide⟩

/-! ## Claim C6: the empty-group invariant -/

mutual

/-- No ItemGroup element of the subtree contains another ItemGroup
element among its descendants. -/
def noNestIGN : XNode → Bool
  | .tag n _ ch =>
    (decide (n ≠ igChars) || !descHelperL igChars ch) && noNestIGL ch
  | _ => true

/-- Forest version of noNestIGN. -/
def noNestIGL : List XNode → Bool
  | [] => true
  | x :: rest => noNestIGN x && noNestIGL rest

end

mutual

/-- Every ItemGroup element of the subtree has at least one element
child: no present-but-empty ItemGroup. -/
def emptyGroupFreeN : XNode → Bool
  | .tag n _ ch =>
    (decide (n ≠ igChars) || hasElemAmong ch) && emptyGroupFreeL ch
  | _ => true

/-- Forest version of emptyGroupFreeN. -/
def emptyGroupFreeL : List XNode → Bool
  | [] => true
  | x :: rest => emptyGroupFreeN x && emptyGroupFreeL rest

end

mutual

/-- The deletion pass cannot create a named descendant inside a node. -/
theorem descHelperN_delMN (t rel : List Char) :
    ∀ x : XNode, descHelperN t (delMN rel x) = true → descHelperN t x = true
  | .text _ => fun h => h
  | .directive _ => fun h => h
  | .tag n a ch => fun h => by
    rw [delMN, descHelperN, Bool.or_eq_true] at h
    rw [descHelperN, Bool.or_eq_true]
    rcases h with h | h
    · exact Or.inl h
    · exact Or.inr (descHelperL_delML t rel _ ch h)

/-- The deletion pass cannot create a named descendant in a forest. -/
theorem descHelperL_delML (t rel : List Char) (pig : Bool) :
    ∀ l : List XNode, descHelperL t (delML rel pig l) = true →
      descHelperL t l = true
  | [] => fun h => h
  | x :: rest => fun h => by
    rw [delML] at h
    rw [descHelperL, Bool.or_eq_true]
    by_cases hc : pig && isMatchElem rel x
    · rw [if_pos hc] at h
      exact Or.inr (descHelperL_delML t rel pig rest h)
    · rw [if_neg hc, descHelperL, Bool.or_eq_true] at h
      rcases h with h | h
      · exact Or.inl (descHelperN_delMN t rel x h)
      · exact Or.inr (descHelperL_delML t rel pig rest h)

end

mutual

/-- The deletion pass preserves the absence of nested ItemGroups in a
node. -/
theorem noNestIGN_delMN (rel : List Char) :
    ∀ x : XNode, noNestIGN x = true → noNestIGN (delMN rel x) = true
  | .text _ => fun h => h
  | .directive _ => fun h => h
  | .tag n a ch => fun h => by
    rw [noNestIGN, Bool.and_eq_true, Bool.or_eq_true] at h
    rw [delMN, noNestIGN, Bool.and_eq_true, Bool.or_eq_true]
    refine ⟨?_, noNestIGL_delML rel _ ch h.2⟩
    rcases h.1 with hd | hd
    · exact Or.inl hd
    · right
      rw [Bool.not_eq_true'] at hd ⊢
      by_contra hcon
      rw [Bool.not_eq_false] at hcon
      have := descHelperL_delML igChars rel _ ch hcon
      rw [hd] at this
      exact Bool.false_ne_true this

/-- The deletion pass preserves the absence of nested ItemGroups in a
forest. -/
theorem noNestIGL_delML (rel : List Char) (pig : Bool) :
    ∀ l : List XNode, noNestIGL l = true → noNestIGL (delML rel pig l) = true
  | [] => fun h => h
  | x :: rest => fun h => by
    rw [noNestIGL, Bool.and_eq_true] at h
    rw [delML]
    by_cases hc : pig && isMatchElem rel x
    · rw [if_pos hc]
      exact noNestIGL_delML rel pig rest h.2
    · rw [if_neg hc, noNestIGL, Bool.and_eq_true]
      exact ⟨noNestIGN_delMN rel x h.1, noNestIGL_delML rel pig rest h.2⟩

end

/-- In a forest with no ItemGroup element anywhere, pruning keeps an
element when there was one. -/
theorem hasElemAmong_pruneL :
    ∀ l, descHelperL igChars l = false → hasElemAmong l = true →
      hasElemAmong (pruneL l) = true := by
  intro l
  induction l with
  | nil => simp [hasElemAmong]
  | cons x rest ih =>
    intro hno hel
    rw [descHelperL, Bool.or_eq_false_iff] at hno
    rw [pruneL]
    cases x with
    | tag n a ch =>
      have hnig : ¬ n = igChars := by
        intro hig
        rw [descHelperN, Bool.or_eq_false_iff] at hno
        have := hno.1.1
        simp [hig] at this
      rw [if_neg (by simp [isEmptyIG, hnig])]
      simp [hasElemAmong, pruneN, XNode.isTag]
    | text t =>
      rw [if_neg (by simp [isEmptyIG])]
      rw [hasElemAmong, List.any_cons] at hel ⊢
      simp only [pruneN, XNode.isTag, Bool.false_or] at hel ⊢
      exact ih hno.2 hel
    | directive s =>
      rw [if_neg (by simp [isEmptyIG])]
      rw [hasElemAmong, List.any_cons] at hel ⊢
      simp only [pruneN, XNode.isTag, Bool.false_or] at hel ⊢
      exact ih hno.2 hel

mutual

/-- Pruning a node without nested ItemGroups and which is not itself
an empty ItemGroup leaves no empty ItemGroup inside. -/
theorem emptyGroupFreeN_pruneN :
    ∀ x : XNode, noNestIGN x = true → isEmptyIG x = false →
      emptyGroupFreeN (pruneN x) = true
  | .text _ => fun _ _ => rfl
  | .directive _ => fun _ _ => rfl
  | .tag n a ch => fun h hne => by
    rw [noNestIGN, Bool.and_eq_true, Bool.or_eq_true] at h
    rw [pruneN, emptyGroupFreeN, Bool.and_eq_true, Bool.or_eq_true]
    refine ⟨?_, emptyGroupFreeL_pruneL ch h.2⟩
    rcases h.1 with hd | hd
    · exact Or.inl hd
    · by_cases hig : n = igChars
      · right
        have hel : hasElemAmong ch = true := by
          rw [isEmptyIG, Bool.and_eq_false_iff] at hne
          rcases hne with hne | hne
          · simp [hig] at hne
          · simpa using hne
        rw [Bool.not_eq_true'] at hd
        exact hasElemAmong_pruneL ch hd hel
      · left
        simp [hig]

/-- Pruning a forest without nested ItemGroups leaves no empty
ItemGroup behind. -/
theorem emptyGroupFreeL_pruneL :
    ∀ l : List XNode, noNestIGL l = true → emptyGroupFreeL (pruneL l) = true
  | [] => fun _ => rfl
  | x :: rest => fun h => by
    rw [noNestIGL, Bool.and_eq_true] at h
    rw [pruneL]
    by_cases he : isEmptyIG x
    · rw [if_pos he]
      exact emptyGroupFreeL_pruneL rest h.2
    · rw [if_neg he, emptyGroupFreeL, Bool.and_eq_true]
      exact ⟨emptyGroupFreeN_pruneN x h.1 (Bool.eq_false_iff.mpr he),
        emptyGroupFreeL_pruneL rest h.2⟩

end

/-- C6, amended: in a document in which no ItemGroup element is nested
inside another ItemGroup element, removeItem never leaves a
present-but-empty ItemGroup behind: every remaining ItemGroup element
has at least one element child.  With nested ItemGroups the one-pass
pruning can leave an outer ItemGroup empty after removing its inner
one. -/
theorem removeItem_empty_group_invariant (rel : List Char) (doc : XDoc)
    (h : noNestIGL doc = true) :
    emptyGroupFreeL (removeItem rel doc).2 = true :=
  emptyGroupFreeL_pruneL _ (noNestIGL_delML rel false doc h)

/-- Document with an ItemGroup nested inside another ItemGroup, the
inner one holding the only item. -/
def docNestedIG : XDoc :=
  [.tag projChars []
    [.tag igChars []
      [.tag igChars []
        [.tag ['C'] [(incChars, ['a'])] []]]]]

/-- C6, counterexample: removing the only item of the nested document
returns true yet leaves the outer ItemGroup present and empty, because
the pruning selector is evaluated once, before the inner group is
removed. -/
theorem removeItem_empty_group_counterexample :
    (removeItem ['a'] docNestedIG).1 = true ∧
    emptyGroupFreeL (removeItem ['a'] docNestedIG).2 = false := by
  constructor
  · decide
  · decide

theorem removeItem_empty_group_invariant_witness :
    noNestIGL docEmptyIG = true ∧
    emptyGroupFreeL (removeItem ['x'] docEmptyIG).2 = true :=
  ⟨by decide, removeItem_empty_group_invariant ['x'] docEmptyIG (by decide)⟩

/-! ## Claim C9: what serialize may and may not change -/

/-- Case-analysis principle following the recursion pattern of the
prettify loop, for proofs about prettyList. -/
theorem prettyCases (i : Indent) (motive : Nat → List XNode → Prop)
    (hnil : ∀ d, motive d [])
    (htt : ∀ d t n a ch rest, motive d (XNode.tag n a ch :: rest) →
      motive d (XNode.text t :: XNode.tag n a ch :: rest))
    (htx : ∀ d t rest, (∀ n a ch r2, rest ≠ XNode.tag n a ch :: r2) →
      motive d rest → motive d (XNode.text t :: rest))
    (hdir : ∀ d s rest, motive d rest → motive d (XNode.directive s :: rest))
    (htag : ∀ d n a ch rest, motive (d + 1) (childPrep i d ch) →
      motive d rest → motive d (XNode.tag n a ch :: rest)) :
    ∀ d l, motive d l := by
  suffices h : ∀ fuel d l, szL l < fuel → motive d l by
    intro d l
    exact h (szL l + 1) d l (Nat.lt_succ_self _)
  intro fuel
  induction fuel with
  | zero => intro d l h; omega
  | succ fuel ih =>
    intro d l h
    match l with
    | [] => exact hnil d
    | .text t :: .tag n a ch :: rest =>
      refine htt d t n a ch rest (ih d _ ?_)
      simp only [szL, szN] at h ⊢; omega
    | .text t :: [] =>
      refine htx d t [] (by intro n a ch r2 hc; cases hc) (ih d _ ?_)
      simp only [szL, szN] at h ⊢; omega
    | .text t :: .text t2 :: rest =>
      refine htx d t _ (by intro n a ch r2 hc; cases hc) (ih d _ ?_)
      simp only [szL, szN] at h ⊢; omega
    | .text t :: .directive s :: rest =>
      refine htx d t _ (by intro n a ch r2 hc; cases hc) (ih d _ ?_)
      simp only [szL, szN] at h ⊢; omega
    | .directive s :: rest =>
      refine hdir d s rest (ih d _ ?_)
      simp only [szL, szN] at h ⊢; omega
    | .tag n a ch :: rest =>
      have hch := szL_childPrep_lt i d ch
      refine htag d n a ch rest (ih (d + 1) _ ?_) (ih d _ ?_) <;>
        (simp only [szL, szN] at h ⊢; omega)

mutual

/-- The element skeleton of one node: elements with their attributes
and the skeletons of their element descendants; text and directive
nodes contribute nothing. -/
def skelN : XNode → List XNode
  | .tag n a ch => [.tag n a (skelL ch)]
  | _ => []

/-- The element skeleton of a forest. -/
def skelL : List XNode → List XNode
  | [] => []
  | x :: rest => skelN x ++ skelL rest

end

theorem skelL_append (a b : List XNode) :
    skelL (a ++ b) = skelL a ++ skelL b := by
  induction a with
  | nil => simp [skelL]
  | cons x xs ih => simp [skelL, ih]

theorem skelL_dropTrailWs (l : List XNode) :
    skelL (dropTrailWs l) = skelL l := by
  induction l with
  | nil => rfl
  | cons x xs ih =>
    rw [dropTrailWs]
    cases h : dropTrailWs xs with
    | nil =>
      rw [h] at ih
      by_cases hw : x.isWsText
      · rw [if_pos hw]
        cases x with
        | text t => simp [skelL, skelN, ih.symm]
        | directive s => simp [skelL, skelN, ih.symm]
        | tag n a ch => simp [XNode.isWsText] at hw
      · rw [if_neg hw]
        simp [skelL, ih.symm]
    | cons y r =>
      rw [h] at ih
      simp [skelL, ← ih]

theorem skelL_cons_text (t : List Char) (l : List XNode) :
    skelL (.text t :: l) = skelL l := by
  simp [skelL, skelN]

theorem skelL_cons_dir (s : List Char) (l : List XNode) :
    skelL (.directive s :: l) = skelL l := by
  simp [skelL, skelN]

theorem skelL_childPrep (i : Indent) (d : Nat) (ch : List XNode) :
    skelL (childPrep i d ch) = skelL ch := by
  unfold childPrep
  rw [skelL_append, skelL_dropTrailWs]
  split <;> simp [skelL, skelN]

/-- The prettify loop never touches the element skeleton. -/
theorem skelL_prettyList (i : Indent) : ∀ d l, skelL (prettyList i d l) = skelL l := by
  refine prettyCases i (fun d l => skelL (prettyList i d l) = skelL l) ?_ ?_ ?_ ?_ ?_
  · intro d; rw [prettyList_nil]
  · intro d t n a ch rest ih
    rw [prettyList_text_tag]
    split
    · rw [ih, skelL_cons_text]
    · rw [skelL_cons_text, ih, skelL_cons_text]
  · intro d t rest hne ih
    rw [prettyList_text i d t rest hne, skelL_cons_text, ih, skelL_cons_text]
  · intro d s rest ih
    rw [prettyList_directive, skelL_cons_dir, ih, skelL_cons_dir]
  · intro d n a ch rest ih1 ih2
    rw [prettyList_tag, skelL_append]
    have hpre : skelL (preTag i d) = [] := by
      unfold preTag
      split <;> simp [skelL, skelN]
    rw [hpre, List.nil_append]
    simp only [skelL, skelN]
    rw [ih1, ih2, skelL_childPrep]

/-- A forest with no element children has an empty skeleton. -/
theorem skelL_of_no_elem (ch : List XNode) (h : hasElemAmong ch = false) :
    skelL ch = [] := by
  induction ch with
  | nil => rfl
  | cons x rest ih =>
    rw [hasElemAmong, List.any_cons, Bool.or_eq_false_iff] at h
    rw [skelL]
    cases x with
    | tag n a c => simp [XNode.isTag] at h
    | text t => simpa [skelN] using ih (by rw [hasElemAmong]; exact h.2)
    | directive s => simpa [skelN] using ih (by rw [hasElemAmong]; exact h.2)

mutual

theorem skelN_emptyProjN :
    ∀ x : XNode, projsElemFreeN x = true → skelN (emptyProjN x) = skelN x
  | .text _ => fun _ => rfl
  | .directive _ => fun _ => rfl
  | .tag n a ch => fun h => by
    rw [projsElemFreeN, Bool.and_eq_true, Bool.or_eq_true] at h
    rw [emptyProjN]
    by_cases hp : n = projChars
    · rw [if_pos hp]
      simp only [skelN, skelL]
      rcases h.1 with hd | hd
      · simp [hp] at hd
      · rw [skelL_of_no_elem ch (by simpa using hd)]
    · rw [if_neg hp]
      simp only [skelN]
      rw [skelL_emptyProjL ch h.2]

theorem skelL_emptyProjL :
    ∀ l : List XNode, projsElemFreeL l = true → skelL (emptyProjL l) = skelL l
  | [] => fun _ => rfl
  | x :: rest => fun h => by
    rw [projsElemFreeL, Bool.and_eq_true] at h
    rw [emptyProjL, skelL, skelL, skelN_emptyProjN x h.1,
      skelL_emptyProjL rest h.2]

end

theorem skelL_dropLeadWs (l : List XNode) :
    skelL (dropLeadWs l) = skelL l := by
  match l with
  | [] => rfl
  | x :: xs =>
    rw [dropLeadWs]
    by_cases hw : x.isWsText
    · rw [if_pos hw]
      cases x with
      | text t => rw [skelL_cons_text]
      | tag n a ch => simp [XNode.isWsText] at hw
      | directive s => simp [XNode.isWsText] at hw
    · rw [if_neg hw]

mutual

theorem skelN_trimAfterProjN :
    ∀ x : XNode, skelN (trimAfterProjN x).1 = skelN x
  | .text _ => rfl
  | .directive _ => rfl
  | .tag n a ch => by
    rw [trimAfterProjN]
    cases h : trimAfterProjL ch with
    | mk ch2 f =>
      have := skelL_trimAfterProjL ch
      rw [h] at this
      simp only [skelN]
      rw [this]

theorem skelL_trimAfterProjL :
    ∀ l : List XNode, skelL (trimAfterProjL l).1 = skelL l
  | [] => rfl
  | x :: rest => by
    rw [trimAfterProjL]
    by_cases hp : isProjTag x
    · rw [if_pos hp]
      simp only [skelL]
      rw [skelL_dropLeadWs]
    · rw [if_neg hp]
      cases h : trimAfterProjN x with
      | mk x2 f =>
        cases f with
        | true =>
          simp only [skelL]
          have := skelN_trimAfterProjN x
          rw [h] at this
          rw [this]
        | false =>
          cases h2 : trimAfterProjL rest with
          | mk rest2 f2 =>
            have := skelL_trimAfterProjL rest
            rw [h2] at this
            simp only [skelL]
            rw [this]

end

mutual

theorem skelN_insNlN (nl : List Char) :
    ∀ x : XNode, skelN (insNlN nl x) = skelN x
  | .text _ => rfl
  | .directive _ => rfl
  | .tag n a ch => by
    rw [insNlN]
    simp only [skelN]
    rw [skelL_insNlL nl ch]

theorem skelL_insNlL (nl : List Char) :
    ∀ l : List XNode, skelL (insNlL nl l) = skelL l
  | [] => rfl
  | x :: rest => by
    rw [insNlL]
    by_cases hp : isProjTag x
    · rw [if_pos hp]
      simp only [skelL, skelN]
      rw [skelN_insNlN nl x, skelL_insNlL nl rest]
      simp
    · rw [if_neg hp]
      simp only [skelL]
      rw [skelN_insNlN nl x, skelL_insNlL nl rest]

end

/-- C9, amended: serialize is not read-only on the tree, but the
mutation is confined to non-element nodes: prettify inserts and
removes whitespace text nodes (and clears the non-element content of
an element-childless Project), while every element, its attributes and
the nesting and order of elements are preserved exactly; only addItem
and removeItem change elements. -/
theorem serialize_preserves_skeleton (i : Indent) (doc c : XDoc)
    (h : prettifyF i doc = some c) : skelL c = skelL doc := by
  unfold prettifyF at h
  by_cases hp : hasProjL (prettyList i 0 doc)
  · rw [if_pos hp] at h
    have hc := Option.some.inj h
    subst hc
    rw [skelL_insNlL, skelL_trimAfterProjL]
    by_cases he : projsElemFreeL (prettyList i 0 doc)
    · rw [if_pos he, skelL_emptyProjL _ he, skelL_prettyList]
    · rw [if_neg he, skelL_prettyList]
  · rw [if_neg hp] at h
    cases h

/-- A compact document: root with one child element and no text. -/
def docCompact : XDoc :=
  [.tag projChars [] [.tag ['X'] [] []]]

/-- C9, counterexample: serializing right after open mutates the tree,
here by appending a text node after the root; the claim that the XML
tree is left unchanged is false. -/
theorem serialize_mutates_counterexample :
    prettifyF (detectIndent docCompact) docCompact ≠ some docCompact := by
  decide

theorem serialize_preserves_skeleton_witness :
    (∃ c, prettifyF (detectIndent docCompact) docCompact = some c ∧
      skelL c = skelL docCompact) := by
  refine ⟨(insNlL [] (trimAfterProjL (prettyList ⟨[], []⟩ 0 docCompact)).1), ?_, ?_⟩
  · decide
  · exact serialize_preserves_skeleton (detectIndent docCompact) docCompact _ (by decide)

/-! ## Claim C8: self-closing tag spacing -/

/-- Every slash, greater-than pair standing at end of line is preceded
by a space; prev carries the character before the current position. -/
def noUnsp (prev : Option Char) : List Char → Bool
  | [] => true
  | [_] => true
  | c1 :: c2 :: rest =>
    if c1 = '/' ∧ c2 = '>' then
      (if atLineEnd rest then decide (prev = some ' ') else true) &&
        noUnsp (some '>') rest
    else noUnsp (some c1) (c2 :: rest)

/-- Every slash, greater-than pair anywhere in the string is preceded
by a space: the claim read over the whole output. -/
def allSpaced (prev : Option Char) : List Char → Bool
  | [] => true
  | [_] => true
  | c1 :: c2 :: rest =>
    if c1 = '/' ∧ c2 = '>' then
      decide (prev = some ' ') && allSpaced (some '>') rest
    else allSpaced (some c1) (c2 :: rest)

theorem atLineEnd_fixup (u : List Char) : atLineEnd (fixup u) = atLineEnd u := by
  match u with
  | [] => rfl
  | [c] => rfl
  | c1 :: c2 :: rest =>
    rw [fixup]
    by_cases h : c1 = '/' ∧ c2 = '>'
    · rw [if_pos h]
      obtain ⟨rfl, rfl⟩ := h
      by_cases hl : atLineEnd rest
      · rw [if_pos hl]; rfl
      · rw [if_neg hl]; rfl
    · rw [if_neg h]; rfl

theorem fixup_cons_head (c : Char) (rest : List Char) :
    ∃ d out2, fixup (c :: rest) = d :: out2 ∧ (d = ' ' ∨ d = c) := by
  match rest with
  | [] => exact ⟨c, [], rfl, Or.inr rfl⟩
  | c2 :: rest2 =>
    rw [fixup]
    by_cases h : c = '/' ∧ c2 = '>'
    · rw [if_pos h]
      obtain ⟨rfl, rfl⟩ := h
      by_cases hl : atLineEnd rest2
      · rw [if_pos hl]
        exact ⟨' ', _, rfl, Or.inl rfl⟩
      · rw [if_neg hl]
        exact ⟨'/', _, rfl, Or.inr rfl⟩
    · rw [if_neg h]
      exact ⟨c, _, rfl, Or.inr rfl⟩

/-- In the output of the fix-up, every slash, greater-than pair at end
of line is preceded by a space. -/
theorem noUnsp_fixup : ∀ u : List Char, ∀ prev, noUnsp prev (fixup u) = true
  | [] => fun _ => rfl
  | [c] => fun _ => rfl
  | c1 :: c2 :: rest => fun prev => by
    rw [fixup]
    by_cases h : c1 = '/' ∧ c2 = '>'
    · rw [if_pos h]
      by_cases hl : atLineEnd rest
      · rw [if_pos hl]
        show noUnsp prev (' ' :: '/' :: '>' :: fixup rest) = true
        rw [noUnsp, if_neg (by simp)]
        show noUnsp (some ' ') ('/' :: '>' :: fixup rest) = true
        rw [noUnsp, if_pos ⟨rfl, rfl⟩, atLineEnd_fixup, if_pos hl]
        simp only [Option.some.injEq, decide_eq_true_eq, Bool.and_eq_true]
        exact ⟨by simp, noUnsp_fixup rest (some '>')⟩
      · rw [if_neg hl]
        show noUnsp prev ('/' :: '>' :: fixup rest) = true
        rw [noUnsp, if_pos ⟨rfl, rfl⟩, atLineEnd_fixup, if_neg hl]
        simpa using noUnsp_fixup rest (some '>')
    · rw [if_neg h]
      obtain ⟨d, out2, heq, hd⟩ := fixup_cons_head c2 rest
      rw [heq, noUnsp]
      have hnm : ¬ (c1 = '/' ∧ d = '>') := by
        intro hc
        apply h
        refine ⟨hc.1, ?_⟩
        rcases hd with rfl | rfl
        · cases hc.2
        · exact hc.2
      rw [if_neg hnm, ← heq]
      exact noUnsp_fixup (c2 :: rest) (some c1)

/-- C8, amended: serialize applies the single final regular-expression
pass over the serialized text, and in the result every self-closing
tag that stands at the end of a line carries a space before the
closing slash; self-closing tags that are not at end of line, as in a
document with no detected indentation, are left without the space. -/
theorem serialize_selfclose_spacing (i : Indent) (doc : XDoc) (s : List Char)
    (h : serializeF i doc = some s) : noUnsp none s = true := by
  unfold serializeF at h
  cases hp : prettifyF i doc with
  | none => rw [hp] at h; cases h
  | some c =>
    rw [hp] at h
    have h2 : some (fixup (renderL false c)) = some s := h
    have hs := Option.some.inj h2
    rw [← hs]
    exact noUnsp_fixup _ none

/-- C8, counterexample: serializing a compact document yields text in
which the self-closing tag of the child is not followed by a line
terminator, so the regular expression leaves it unspaced and the
output contains a self-closing tag with no space before the slash. -/
theorem serialize_selfclose_counterexample :
    (serializeOpen docCompact).map (allSpaced none) = some false := by
  decide

theorem serialize_selfclose_spacing_witness :
    serializeF (detectIndent docCompact) docCompact =
      some ('<' :: 'P' :: 'r' :: 'o' :: 'j' :: 'e' :: 'c' :: 't' :: '>' ::
        '<' :: 'X' :: '/' :: '>' :: '<' :: '/' :: 'P' :: 'r' :: 'o' :: 'j' ::
        'e' :: 'c' :: 't' :: '>' :: []) ∧
    noUnsp none ('<' :: 'P' :: 'r' :: 'o' :: 'j' :: 'e' :: 'c' :: 't' :: '>' ::
        '<' :: 'X' :: '/' :: '>' :: '<' :: '/' :: 'P' :: 'r' :: 'o' :: 'j' ::
        'e' :: 'c' :: 't' :: '>' :: []) = true :=
  ⟨by decide, serialize_selfclose_spacing (detectIndent docCompact) docCompact _ (by decide)⟩

/-! ## Claim C7: the add/remove inverse -/

/-- An element carrying an Include attribute (an item in the sense of
the data model). -/
def hasIncludeAttr : XNode → Bool
  | .tag _ a _ => (getAttr a incChars).isSome
  | _ => false

mutual

/-- Some ItemGroup element of the subtree has a child element with an
Include attribute: the subtree contains an item. -/
def hasItemAnyN : XNode → Bool
  | .tag n _ ch =>
    (decide (n = igChars) && ch.any hasIncludeAttr) || hasItemAnyL ch
  | _ => false

/-- Forest version of hasItemAnyN. -/
def hasItemAnyL : List XNode → Bool
  | [] => false
  | x :: rest => hasItemAnyN x || hasItemAnyL rest

end

theorem hasIncludeAttr_of_isMatch (rel : List Char) (c : XNode)
    (h : isMatchElem rel c = true) : hasIncludeAttr c = true := by
  cases c with
  | tag n a ch =>
    rw [isMatchElem, decide_eq_true_eq] at h
    rw [hasIncludeAttr, h]
    rfl
  | text t => cases h
  | directive s => cases h

mutual

theorem hasMatchN_of_no_item (rel : List Char) :
    ∀ x : XNode, hasItemAnyN x = false → hasMatchN rel x = false
  | .text _ => fun _ => rfl
  | .directive _ => fun _ => rfl
  | .tag n a ch => fun h => by
    rw [hasItemAnyN, Bool.or_eq_false_iff, Bool.and_eq_false_iff] at h
    rw [hasMatchN, Bool.or_eq_false_iff, Bool.and_eq_false_iff]
    refine ⟨?_, hasMatchL_of_no_item rel ch h.2⟩
    rcases h.1 with hn | hany
    · exact Or.inl hn
    · right
      rw [List.any_eq_false] at hany ⊢
      intro c hc hcon
      exact hany c hc (hasIncludeAttr_of_isMatch rel c hcon)

theorem hasMatchL_of_no_item (rel : List Char) :
    ∀ l : List XNode, hasItemAnyL l = false → hasMatchL rel l = false
  | [] => fun _ => rfl
  | x :: rest => fun h => by
    rw [hasItemAnyL, Bool.or_eq_false_iff] at h
    rw [hasMatchL, Bool.or_eq_false_iff]
    exact ⟨hasMatchN_of_no_item rel x h.1, hasMatchL_of_no_item rel rest h.2⟩

end

/-- A forest with no item has members without items. -/
theorem hasItemAnyN_of_mem :
    ∀ l : List XNode, hasItemAnyL l = false →
      ∀ c ∈ l, hasItemAnyN c = false := by
  intro l
  induction l with
  | nil => intro _ c hc; simp at hc
  | cons x rest ih =>
    intro h c hc
    rw [hasItemAnyL, Bool.or_eq_false_iff] at h
    rcases List.mem_cons.mp hc with rfl | h2
    · exact h.1
    · exact ih h.2 c h2

mutual

/-- Pruning is the identity on nodes without empty ItemGroups. -/
theorem pruneN_id : ∀ x : XNode, emptyGroupFreeN x = true → pruneN x = x
  | .text _ => fun _ => rfl
  | .directive _ => fun _ => rfl
  | .tag n a ch => fun h => by
    rw [emptyGroupFreeN, Bool.and_eq_true] at h
    rw [pruneN, pruneL_id ch h.2]

/-- Pruning is the identity on forests without empty ItemGroups. -/
theorem pruneL_id : ∀ l : List XNode, emptyGroupFreeL l = true → pruneL l = l
  | [] => fun _ => rfl
  | x :: rest => fun h => by
    rw [emptyGroupFreeL, Bool.and_eq_true] at h
    have hx : isEmptyIG x = false := by
      cases x with
      | tag n a ch =>
        have h1 := h.1
        rw [emptyGroupFreeN, Bool.and_eq_true, Bool.or_eq_true] at h1
        rw [isEmptyIG, Bool.and_eq_false_iff]
        rcases h1.1 with hd | hd
        · left; simpa using hd
        · right; simp [hd]
      | text t => rfl
      | directive s => rfl
    rw [pruneL, if_neg (by simp [hx]), pruneN_id x h.1, pruneL_id rest h.2]

end

theorem delML_append (rel : List Char) (pig : Bool) :
    ∀ a b : List XNode,
      delML rel pig (a ++ b) = delML rel pig a ++ delML rel pig b := by
  intro a b
  induction a with
  | nil => rfl
  | cons x rest ih =>
    rw [List.cons_append, delML, delML]
    by_cases hc : pig && isMatchElem rel x
    · rw [if_pos hc, if_pos hc, ih]
    · rw [if_neg hc, if_neg hc, List.cons_append, ih]

/-- The new item element created by addItem. -/
def mkItem (t rel : List Char) : XNode := .tag t [(incChars, rel)] []

theorem isMatch_mkItem (t rel : List Char) :
    isMatchElem rel (mkItem t rel) = true := by
  simp [mkItem, isMatchElem, getAttr]

mutual

/-- Deleting the freshly added item restores a node without items. -/
theorem delMN_addLastN (t rel : List Char) :
    ∀ x : XNode, hasItemAnyN x = false →
      ∀ x2, addLastN t (mkItem t rel) x = some x2 → delMN rel x2 = x
  | .text _ => fun _ x2 h2 => by cases h2
  | .directive _ => fun _ x2 h2 => by cases h2
  | .tag n a ch => fun h x2 h2 => by
    rw [hasItemAnyN, Bool.or_eq_false_iff, Bool.and_eq_false_iff] at h
    rw [addLastN] at h2
    cases hrec : addLastL t (mkItem t rel) ch with
    | some ch2 =>
      rw [hrec] at h2
      have hx2 := Option.some.inj h2
      subst hx2
      rw [delMN]
      congr 1
      have hinc : decide (n = igChars) = true →
          ∀ c ∈ ch, isMatchElem rel c = false := by
        intro hpig c hc
        rcases h.1 with hn | hany
        · rw [hpig] at hn; exact absurd hn (by simp)
        · rw [List.any_eq_false] at hany
          rw [Bool.eq_false_iff]
          intro hcon
          exact absurd (hasIncludeAttr_of_isMatch rel c hcon)
            (by simp [hany c hc])
      exact delML_addLastL t rel ch (decide (n = igChars)) h.2 hinc ch2 hrec
    | none =>
      rw [hrec] at h2
      by_cases hcond : n = igChars ∧ descHelperL t ch
      · rw [if_pos hcond] at h2
        have hx2 := Option.some.inj h2
        subst hx2
        rw [delMN]
        congr 1
        have hpig : decide (n = igChars) = true := by simp [hcond.1]
        rw [hpig]
        have happ : delML rel true (ch ++ [mkItem t rel]) =
            delML rel true ch ++ delML rel true [mkItem t rel] :=
          delML_append rel true ch [mkItem t rel]
        rw [happ]
        have hitem : delML rel true [mkItem t rel] = [] := by
          rw [delML, if_pos (by simp [isMatch_mkItem])]
          rfl
        rw [hitem, List.append_nil]
        apply delML_id rel true ch (hasMatchN_of_mem rel ch
          (hasMatchL_of_no_item rel ch h.2))
        intro _ c hc
        rcases h.1 with hn | hany
        · rw [hcond.1] at hn; exact absurd hn (by simp)
        · rw [List.any_eq_false] at hany
          rw [Bool.eq_false_iff]
          intro hcon
          exact absurd (hasIncludeAttr_of_isMatch rel c hcon)
            (by simp [hany c hc])
      · rw [if_neg hcond] at h2
        cases h2

/-- Deleting the freshly added item restores a forest without items. -/
theorem delML_addLastL (t rel : List Char) :
    ∀ l : List XNode, ∀ pig, hasItemAnyL l = false →
      (pig = true → ∀ c ∈ l, isMatchElem rel c = false) →
      ∀ l2, addLastL t (mkItem t rel) l = some l2 → delML rel pig l2 = l
  | [] => fun _ _ _ l2 h2 => by cases h2
  | x :: rest => fun pig h hpig l2 h2 => by
    rw [hasItemAnyL, Bool.or_eq_false_iff] at h
    rw [addLastL] at h2
    cases hrec : addLastL t (mkItem t rel) rest with
    | some rest2 =>
      rw [hrec] at h2
      have hx2 := Option.some.inj h2
      subst hx2
      rw [delML]
      have hcond : (pig && isMatchElem rel x) = false := by
        cases hp : pig with
        | false => rfl
        | true => simp [hpig hp x (List.mem_cons_self _ _)]
      rw [if_neg (by simp [hcond])]
      rw [delMN_id rel x (hasMatchN_of_no_item rel x h.1),
        delML_addLastL t rel rest pig h.2
          (fun hp c hc => hpig hp c (List.mem_cons_of_mem _ hc)) rest2 hrec]
    | none =>
      rw [hrec] at h2
      cases hnode : addLastN t (mkItem t rel) x with
      | some x2 =>
        rw [hnode] at h2
        have hx2 := Option.some.inj h2
        subst hx2
        rw [delML]
        have hmx2 : isMatchElem rel x2 = isMatchElem rel x := by
          cases x with
          | tag n a ch =>
            rw [addLastN] at hnode
            cases hr : addLastL t (mkItem t rel) ch with
            | some ch2 =>
              rw [hr] at hnode
              have := Option.some.inj hnode
              subst this
              rfl
            | none =>
              rw [hr] at hnode
              by_cases hc2 : n = igChars ∧ descHelperL t ch
              · rw [if_pos hc2] at hnode
                have := Option.some.inj hnode
                subst this
                rfl
              · rw [if_neg hc2] at hnode; cases hnode
          | text s => cases hnode
          | directive s => cases hnode
        have hcond : (pig && isMatchElem rel x2) = false := by
          cases hp : pig with
          | false => rfl
          | true => simp [hmx2, hpig hp x (List.mem_cons_self _ _)]
        rw [if_neg (by simp [hcond]),
          delMN_addLastN t rel x h.1 x2 hnode,
          delML_id rel pig rest
            (hasMatchN_of_mem rel rest (hasMatchL_of_no_item rel rest h.2))
            (fun hp c hc => hpig hp c (List.mem_cons_of_mem _ hc))]
      | none =>
        rw [hnode] at h2
        cases h2

end


theorem isTag_appendGroupN (grp : XNode) (x : XNode) :
    (appendGroupN grp x).isTag = x.isTag := by
  cases x with
  | tag n a ch =>
    rw [appendGroupN]
    split <;> rfl
  | text t => rfl
  | directive s => rfl

theorem hasElemAmong_appendGroupL (grp : XNode) (l : List XNode) :
    hasElemAmong (appendGroupL grp l) = hasElemAmong l := by
  induction l with
  | nil => rfl
  | cons x rest ih =>
    rw [appendGroupL]
    simp only [hasElemAmong, List.any_cons] at ih ⊢
    rw [isTag_appendGroupN, ih]

theorem proj_ne_ig : projChars ≠ igChars := by decide

theorem isEmptyIG_appendGroupN (grp : XNode) (x : XNode) :
    isEmptyIG (appendGroupN grp x) = isEmptyIG x := by
  cases x with
  | tag n a ch =>
    rw [appendGroupN]
    by_cases hp : n = projChars
    · rw [if_pos hp, isEmptyIG, isEmptyIG]
      have : decide (n = igChars) = false := by
        simp [hp, proj_ne_ig]
      rw [this]
      rfl
    · rw [if_neg hp, isEmptyIG, isEmptyIG, hasElemAmong_appendGroupL]
  | text t => rfl
  | directive s => rfl

theorem isMatch_appendGroupN (rel : List Char) (grp : XNode) (x : XNode) :
    isMatchElem rel (appendGroupN grp x) = isMatchElem rel x := by
  cases x with
  | tag n a ch =>
    rw [appendGroupN]
    split <;> rfl
  | text t => rfl
  | directive s => rfl

/-- The fresh ItemGroup created by addItem around the new item. -/
def mkGrp (t rel : List Char) : XNode := .tag igChars [] [mkItem t rel]

/-- The same group once the item has been deleted again. -/
def emptyGrp : XNode := .tag igChars [] []

mutual

/-- Deleting the fresh item from the appended groups empties them and
leaves the rest of a matchless node unchanged. -/
theorem delMN_appendGroupN (t rel : List Char) :
    ∀ x : XNode, hasMatchN rel x = false →
      delMN rel (appendGroupN (mkGrp t rel) x) = appendGroupN emptyGrp x
  | .text _ => fun _ => rfl
  | .directive _ => fun _ => rfl
  | .tag n a ch => fun h => by
    rw [hasMatchN, Bool.or_eq_false_iff, Bool.and_eq_false_iff] at h
    rw [appendGroupN, appendGroupN]
    by_cases hp : n = projChars
    · rw [if_pos hp, if_pos hp, delMN]
      have hig : decide (n = igChars) = false := by simp [hp, proj_ne_ig]
      rw [hig, delML_append]
      have hgrp : delML rel false [mkGrp t rel] = [emptyGrp] := by
        rw [delML, if_neg (by simp)]
        rw [delML]
        congr 1
        rw [mkGrp, delMN]
        congr 1
        rw [delML, if_pos (by simp [isMatch_mkItem])]
        rfl
      rw [hgrp]
      have hrec := delML_appendGroupL t rel ch false
        (hasMatchN_of_mem rel ch h.2) (by intro hc; cases hc)
      rw [hrec]
    · rw [if_neg hp, if_neg hp, delMN]
      congr 1
      refine delML_appendGroupL t rel ch (decide (n = igChars)) ?_ ?_
      · exact hasMatchN_of_mem rel ch h.2
      · intro hpig c hc
        rcases h.1 with hn | hany
        · rw [hpig] at hn; exact absurd hn (by simp)
        · rw [List.any_eq_false] at hany
          exact Bool.eq_false_iff.mpr (hany c hc)

/-- List version of delMN_appendGroupN. -/
theorem delML_appendGroupL (t rel : List Char) :
    ∀ l : List XNode, ∀ pig, (∀ c ∈ l, hasMatchN rel c = false) →
      (pig = true → ∀ c ∈ l, isMatchElem rel c = false) →
      delML rel pig (appendGroupL (mkGrp t rel) l) = appendGroupL emptyGrp l
  | [] => fun _ _ _ => rfl
  | x :: rest => fun pig h hpig => by
    rw [appendGroupL, appendGroupL, delML]
    have hcond : (pig && isMatchElem rel (appendGroupN (mkGrp t rel) x)) = false := by
      rw [isMatch_appendGroupN]
      cases hp : pig with
      | false => rfl
      | true => simp [hpig hp x (List.mem_cons_self _ _)]
    rw [if_neg (by simp [hcond])]
    rw [delMN_appendGroupN t rel x (h x (List.mem_cons_self _ _)),
      delML_appendGroupL t rel rest pig
        (fun c hc => h c (List.mem_cons_of_mem _ hc))
        (fun hp c hc => hpig hp c (List.mem_cons_of_mem _ hc))]

end

theorem pruneL_append (a b : List XNode) :
    pruneL (a ++ b) = pruneL a ++ pruneL b := by
  induction a with
  | nil => rfl
  | cons x rest ih =>
    rw [List.cons_append, pruneL, pruneL]
    by_cases hc : isEmptyIG x
    · rw [if_pos hc, if_pos hc, ih]
    · rw [if_neg hc, if_neg hc, List.cons_append, ih]

mutual

/-- Pruning removes the appended empty groups and otherwise acts as on
the original node. -/
theorem pruneN_appendGroupN :
    ∀ x : XNode, pruneN (appendGroupN emptyGrp x) = pruneN x
  | .text _ => rfl
  | .directive _ => rfl
  | .tag n a ch => by
    rw [appendGroupN]
    by_cases hp : n = projChars
    · rw [if_pos hp, pruneN, pruneN, pruneL_append]
      have hgrp : pruneL [emptyGrp] = [] := by
        rw [pruneL, if_pos (by decide)]
        rfl
      rw [hgrp, List.append_nil, pruneL_appendGroupL ch]
    · rw [if_neg hp, pruneN, pruneN, pruneL_appendGroupL ch]

/-- List version of pruneN_appendGroupN. -/
theorem pruneL_appendGroupL :
    ∀ l : List XNode, pruneL (appendGroupL emptyGrp l) = pruneL l
  | [] => rfl
  | x :: rest => by
    rw [appendGroupL, pruneL, pruneL, isEmptyIG_appendGroupN]
    by_cases hc : isEmptyIG x
    · rw [if_pos hc, if_pos hc, pruneL_appendGroupL rest]
    · rw [if_neg hc, if_neg hc, pruneN_appendGroupN x, pruneL_appendGroupL rest]

end

/-- C7, amended: for a document that contains no items and in which
every ItemGroup element has at least one element child, addItem
followed by removeItem restores the tree exactly and hence the
serialized text.  A document with a pre-existing ItemGroup empty of
element children breaks the inverse: the pruning pass of removeItem
deletes that group too. -/
theorem addItem_removeItem_inverse (t rel : List Char) (doc : XDoc)
    (hno : hasItemAnyL doc = false) (hfree : emptyGroupFreeL doc = true) :
    (removeItem rel (addItem t rel doc)).2 = doc ∧
    ∀ i : Indent,
      serializeF i ((removeItem rel (addItem t rel doc)).2) =
        serializeF i doc := by
  have htree : (removeItem rel (addItem t rel doc)).2 = doc := by
    have haddeq : addItem t rel doc =
        match addLastL t (mkItem t rel) doc with
        | some doc2 => doc2
        | none => appendGroupL (mkGrp t rel) doc := rfl
    rw [removeItem, haddeq]
    cases hadd : addLastL t (mkItem t rel) doc with
    | some doc2 =>
      have hdel : delMatchesL rel doc2 = doc :=
        delML_addLastL t rel doc false hno (by intro hc; cases hc) doc2 hadd
      rw [hdel]
      exact pruneL_id doc hfree
    | none =>
      have hdel : delMatchesL rel (appendGroupL (mkGrp t rel) doc) =
          appendGroupL emptyGrp doc :=
        delML_appendGroupL t rel doc false
          (hasMatchN_of_mem rel doc (hasMatchL_of_no_item rel doc hno))
          (by intro hc; cases hc)
      rw [hdel, pruneL_appendGroupL doc]
      exact pruneL_id doc hfree
  exact ⟨htree, fun i => by rw [htree]⟩

/-- C7, counterexample: on a document holding one empty ItemGroup and
no items, addItem then removeItem deletes the pre-existing group, so
the serialized text differs from the original. -/
theorem addItem_removeItem_counterexample :
    hasItemAnyL docEmptyIG = false ∧
    serializeF (detectIndent docEmptyIG)
        ((removeItem ['r'] (addItem ['C'] ['r'] docEmptyIG)).2) ≠
      serializeF (detectIndent docEmptyIG) docEmptyIG := by
  constructor
  · decide
  · decide

theorem addItem_removeItem_inverse_witness :
    hasItemAnyL docCompact = false ∧ emptyGroupFreeL docCompact = true ∧
    (removeItem ['r'] (addItem ['C'] ['r'] docCompact)).2 = docCompact :=
  ⟨by decide, by decide,
    (addItem_removeItem_inverse ['C'] ['r'] docCompact (by decide) (by decide)).1⟩

/-! ## Claim C4: addItem placement -/

/-- Model of path.relative on normalized absolute segment paths:
length of the shared prefix. -/
def commonLen : List (List Char) → List (List Char) → Nat
  | a :: as, b :: bs => if a = b then 1 + commonLen as bs else 0
  | _, _ => 0

/-- The parent-directory segment. -/
def dotdot : List Char := ['.', '.']

/-- Join path segments with the backslash separator (the replaceAll of
asRelativePath, which always writes Windows-style separators). -/
def joinBS : List (List Char) → List Char
  | [] => []
  | [s] => s
  | s :: rest => s ++ '\\' :: joinBS rest

/-- Model of Csproj.asRelativePath: the target path relative to the
directory of the project file, with backslash separators. -/
def asRelativePath (projPath target : List (List Char)) : List Char :=
  let base := projPath.dropLast
  let c := commonLen base target
  joinBS (List.replicate (base.length - c) dotdot ++ target.drop c)

/-- An element named t. -/
def isNamedTag (t : List Char) : XNode → Bool
  | .tag n _ _ => decide (n = t)
  | _ => false

/-- The selector ItemGroup:has(t) as the code evaluates it: an
ItemGroup element with a descendant element named t. -/
def igGroupDescP (t : List Char) : XNode → Bool
  | .tag n _ ch => decide (n = igChars) && descHelperL t ch
  | _ => false

/-- The group test as the claim words it: an ItemGroup element with a
child element named t. -/
def igGroupChildP (t : List Char) : XNode → Bool
  | .tag n _ ch => decide (n = igChars) && ch.any (isNamedTag t)
  | _ => false

mutual

/-- Number of matches of a node predicate in a subtree, the node
itself included, in depth-first document order. -/
def cntPN (p : XNode → Bool) : XNode → Nat
  | .tag n a ch => (if p (.tag n a ch) then 1 else 0) + cntPL p ch
  | _ => 0

/-- Number of matches of a node predicate in a forest. -/
def cntPL (p : XNode → Bool) : List XNode → Nat
  | [] => 0
  | x :: rest => cntPN p x + cntPL p rest

end

mutual

/-- Append the item to the children of the k-th match of p inside the
subtree, counting matches in depth-first order from zero. -/
def modPN (p : XNode → Bool) (item : XNode) (k : Nat) : XNode → XNode
  | .tag n a ch =>
    if k < (if p (.tag n a ch) then 1 else 0) then .tag n a (ch ++ [item])
    else .tag n a (modPL p item (k - (if p (.tag n a ch) then 1 else 0)) ch)
  | x => x

/-- Append the item to the children of the k-th match of p in the
forest. -/
def modPL (p : XNode → Bool) (item : XNode) (k : Nat) : List XNode → List XNode
  | [] => []
  | x :: rest =>
    if k < cntPN p x then modPN p item k x :: rest
    else x :: modPL p item (k - cntPN p x) rest

end

mutual

/-- Append the group at the end of the children of the first element
named Project in the subtree, in depth-first document order. -/
def appFirstProjN (grp : XNode) : XNode → XNode × Bool
  | .tag n a ch =>
    if n = projChars then (.tag n a (ch ++ [grp]), true)
    else
      match appFirstProjL grp ch with
      | (ch2, f) => (.tag n a ch2, f)
  | .text t => (.text t, false)
  | .directive s => (.directive s, false)

/-- Append the group inside the first element named Project of the
forest. -/
def appFirstProjL (grp : XNode) : List XNode → List XNode × Bool
  | [] => ([], false)
  | x :: rest =>
    match appFirstProjN grp x with
    | (x2, true) => (x2 :: rest, true)
    | (_, false) =>
      match appFirstProjL grp rest with
      | (rest2, f) => (x :: rest2, f)

end

mutual

/-- Number of elements named Project in a subtree. -/
def cntProjN : XNode → Nat
  | .tag n _ ch => (if n = projChars then 1 else 0) + cntProjL ch
  | _ => 0

/-- Number of elements named Project in a forest. -/
def cntProjL : List XNode → Nat
  | [] => 0
  | x :: rest => cntProjN x + cntProjL rest

end

/-- The placement rule as the claim words it, for a given group test:
append the new item element, carrying Include = rel, to the last group
matching the test in document order, and otherwise to a new ItemGroup
appended as the last child of the Project element. -/
def addItemSpecP (p : XNode → Bool) (t rel : List Char) (doc : XDoc) : XDoc :=
  let m := cntPL p doc
  if 0 < m then modPL p (mkItem t rel) (m - 1) doc
  else (appFirstProjL (.tag igChars [] [mkItem t rel]) doc).1

mutual

theorem addLastN_cnt (t : List Char) (item : XNode) :
    ∀ x : XNode,
      (cntPN (igGroupDescP t) x = 0 → addLastN t item x = none) ∧
      (0 < cntPN (igGroupDescP t) x →
        addLastN t item x =
          some (modPN (igGroupDescP t) item (cntPN (igGroupDescP t) x - 1) x))
  | .text s => ⟨fun _ => rfl, fun h => by cases h⟩
  | .directive s => ⟨fun _ => rfl, fun h => by cases h⟩
  | .tag n a ch => by
    have ihL := addLastL_cnt t item ch
    constructor
    · intro h
      rw [cntPN] at h
      have hch : cntPL (igGroupDescP t) ch = 0 := by omega
      have hp : (if igGroupDescP t (.tag n a ch) then 1 else 0) = 0 := by omega
      simp only [addLastN, ihL.1 hch]
      rw [if_neg]
      intro hcond
      rw [igGroupDescP] at hp
      simp [hcond.1, hcond.2] at hp
    · intro h
      cases hch : cntPL (igGroupDescP t) ch with
      | zero =>
        have hnone := ihL.1 hch
        have hp : igGroupDescP t (.tag n a ch) = true := by
          rw [cntPN, hch] at h
          by_contra hcon
          rw [Bool.not_eq_true] at hcon
          rw [hcon] at h
          simp at h
        have hcond : n = igChars ∧ descHelperL t ch = true := by
          rw [igGroupDescP, Bool.and_eq_true, decide_eq_true_eq] at hp
          exact hp
        simp only [addLastN, hnone]
        rw [if_pos hcond]
        simp [cntPN, modPN, hch, hp]
      | succ c =>
        have h2 := ihL.2 (by omega)
        simp only [addLastN, h2]
        simp only [cntPN, modPN, hch]
        generalize (if igGroupDescP t (XNode.tag n a ch) = true then 1 else 0) = s
        rw [if_neg (by omega)]
        have h3 : s + (c + 1) - 1 - s = c + 1 - 1 := by omega
        rw [h3]

theorem addLastL_cnt (t : List Char) (item : XNode) :
    ∀ l : List XNode,
      (cntPL (igGroupDescP t) l = 0 → addLastL t item l = none) ∧
      (0 < cntPL (igGroupDescP t) l →
        addLastL t item l =
          some (modPL (igGroupDescP t) item (cntPL (igGroupDescP t) l - 1) l))
  | [] => ⟨fun _ => rfl, fun h => by cases h⟩
  | x :: rest => by
    have ihN := addLastN_cnt t item x
    have ihL := addLastL_cnt t item rest
    constructor
    · intro h
      rw [cntPL] at h
      simp only [addLastL, ihL.1 (by omega), ihN.1 (by omega)]
    · intro h
      cases hrest : cntPL (igGroupDescP t) rest with
      | zero =>
        have hr := ihL.1 hrest
        rw [cntPL, hrest] at h
        have hx := ihN.2 (by omega)
        simp only [addLastL, hr, hx]
        simp only [cntPL, hrest, modPL]
        rw [if_pos (by omega)]
        simp
      | succ c =>
        have hr := ihL.2 (by omega)
        simp only [addLastL, hr]
        simp only [cntPL, hrest, modPL]
        rw [if_neg (by omega)]
        have h3 : cntPN (igGroupDescP t) x + (c + 1) - 1 - cntPN (igGroupDescP t) x
            = c + 1 - 1 := by omega
        rw [h3]

end

mutual

theorem appendGroupN_id (grp : XNode) :
    ∀ x : XNode, cntProjN x = 0 → appendGroupN grp x = x
  | .text _ => fun _ => rfl
  | .directive _ => fun _ => rfl
  | .tag n a ch => fun h => by
    rw [cntProjN] at h
    have hp : ¬ n = projChars := by
      intro hc
      rw [if_pos hc] at h
      omega
    rw [appendGroupN, if_neg hp,
      appendGroupL_id grp ch (by omega)]

theorem appendGroupL_id (grp : XNode) :
    ∀ l : List XNode, cntProjL l = 0 → appendGroupL grp l = l
  | [] => fun _ => rfl
  | x :: rest => fun h => by
    rw [cntProjL] at h
    rw [appendGroupL, appendGroupN_id grp x (by omega),
      appendGroupL_id grp rest (by omega)]

end

mutual

theorem appFirstProjN_flag (grp : XNode) :
    ∀ x : XNode,
      ((appFirstProjN grp x).2 = true ↔ 0 < cntProjN x) ∧
      ((appFirstProjN grp x).2 = false → (appFirstProjN grp x).1 = x)
  | .text _ => ⟨by simp [appFirstProjN, cntProjN], fun _ => rfl⟩
  | .directive _ => ⟨by simp [appFirstProjN, cntProjN], fun _ => rfl⟩
  | .tag n a ch => by
    have ihL := appFirstProjL_flag grp ch
    by_cases hp : n = projChars
    · constructor
      · rw [appFirstProjN, if_pos hp, cntProjN, if_pos hp]
        simp
      · rw [appFirstProjN, if_pos hp]
        intro hc
        cases hc
    · constructor
      · rw [appFirstProjN, if_neg hp, cntProjN, if_neg hp]
        cases hfst : appFirstProjL grp ch with
        | mk ch2 f =>
          have := ihL.1
          rw [hfst] at this
          simpa using this
      · rw [appFirstProjN, if_neg hp]
        cases hfst : appFirstProjL grp ch with
        | mk ch2 f =>
          intro hf
          simp only at hf
          subst hf
          have := ihL.2
          rw [hfst] at this
          have h2 := this rfl
          simp only at h2
          rw [h2]

theorem appFirstProjL_flag (grp : XNode) :
    ∀ l : List XNode,
      ((appFirstProjL grp l).2 = true ↔ 0 < cntProjL l) ∧
      ((appFirstProjL grp l).2 = false → (appFirstProjL grp l).1 = l)
  | [] => ⟨by simp [appFirstProjL, cntProjL], fun _ => rfl⟩
  | x :: rest => by
    have ihN := appFirstProjN_flag grp x
    have ihL := appFirstProjL_flag grp rest
    cases hN : appFirstProjN grp x with
    | mk x2 f =>
      cases f with
      | true =>
        constructor
        · rw [appFirstProjL, hN]
          have := ihN.1
          rw [hN] at this
          simp only at this ⊢
          rw [cntProjL]
          have h1 : 0 < cntProjN x := this.mp trivial
          simp
          omega
        · rw [appFirstProjL, hN]
          intro hc
          cases hc
      | false =>
        have hx : x2 = x := by
          have := ihN.2
          rw [hN] at this
          exact this rfl
        subst hx
        cases hR : appFirstProjL grp rest with
        | mk rest2 f2 =>
          constructor
          · rw [appFirstProjL, hN, hR]
            simp only
            rw [cntProjL]
            have h0 : cntProjN x2 = 0 := by
              have := ihN.1
              rw [hN] at this
              simp only at this
              by_contra hcon
              have := this.mpr (by omega)
              cases this
            have := ihL.1
            rw [hR] at this
            simp only at this
            rw [h0]
            simpa using this
          · rw [appFirstProjL, hN, hR]
            intro hf
            simp only at hf
            subst hf
            have := ihL.2
            rw [hR] at this
            have h2 := this rfl
            simp only at h2 ⊢
            rw [h2]

end

mutual

theorem appendGroupN_first (grp : XNode) :
    ∀ x : XNode, cntProjN x ≤ 1 →
      appendGroupN grp x = (appFirstProjN grp x).1
  | .text _ => fun _ => rfl
  | .directive _ => fun _ => rfl
  | .tag n a ch => fun h => by
    rw [cntProjN] at h
    by_cases hp : n = projChars
    · rw [if_pos hp] at h
      rw [appendGroupN, if_pos hp, appFirstProjN, if_pos hp]
      simp only
      rw [appendGroupL_id grp ch (by omega)]
    · rw [appendGroupN, if_neg hp, appFirstProjN, if_neg hp]
      cases hfst : appFirstProjL grp ch with
      | mk ch2 f =>
        simp only
        have := appendGroupL_first grp ch (by rw [if_neg hp] at h; omega)
        rw [hfst] at this
        rw [this]

theorem appendGroupL_first (grp : XNode) :
    ∀ l : List XNode, cntProjL l ≤ 1 →
      appendGroupL grp l = (appFirstProjL grp l).1
  | [] => fun _ => rfl
  | x :: rest => fun h => by
    rw [cntProjL] at h
    cases hN : appFirstProjN grp x with
    | mk x2 f =>
      cases f with
      | true =>
        have hx : 0 < cntProjN x := by
          have := (appFirstProjN_flag grp x).1
          rw [hN] at this
          exact this.mp rfl
        rw [appendGroupL, appFirstProjL, hN]
        simp only
        rw [appendGroupL_id grp rest (by omega)]
        have := appendGroupN_first grp x (by omega)
        rw [hN] at this
        rw [this]
      | false =>
        have h0 : cntProjN x = 0 := by
          have := (appFirstProjN_flag grp x).1
          rw [hN] at this
          simp only at this
          by_contra hcon
          exact absurd (this.mpr (by omega)) (by simp)
        cases hR : appFirstProjL grp rest with
        | mk rest2 f2 =>
          rw [appendGroupL, appFirstProjL, hN, hR]
          simp only
          rw [appendGroupN_id grp x h0]
          have := appendGroupL_first grp rest (by omega)
          rw [hR] at this
          rw [this]

end

/-- C4, amended: for a document with at most one Project element,
addItem appends the new item, carrying Include equal to the path of
the target relative to the manifest directory with backslash
separators, to the last ItemGroup in document order that has a
descendant element named itemType (the CSS :has() test used by the
selector); when no such group exists a new ItemGroup is created as the
last child of the Project element and the item is appended there.
The claim's child-element reading of the group test does not match
the code. -/
theorem addItem_placement (t : List Char) (projPath target : List (List Char))
    (doc : XDoc) (hone : cntProjL doc ≤ 1) :
    addItem t (asRelativePath projPath target) doc =
      addItemSpecP (igGroupDescP t) t (asRelativePath projPath target) doc := by
  have hspec : addItemSpecP (igGroupDescP t) t (asRelativePath projPath target)
      doc =
      if 0 < cntPL (igGroupDescP t) doc then
        modPL (igGroupDescP t) (mkItem t (asRelativePath projPath target))
          (cntPL (igGroupDescP t) doc - 1) doc
      else (appFirstProjL
        (.tag igChars [] [mkItem t (asRelativePath projPath target)]) doc).1 :=
    rfl
  have hadd : addItem t (asRelativePath projPath target) doc =
      match addLastL t (mkItem t (asRelativePath projPath target)) doc with
      | some doc2 => doc2
      | none => appendGroupL
          (.tag igChars [] [mkItem t (asRelativePath projPath target)]) doc :=
    rfl
  rw [hspec, hadd]
  cases hcnt : cntPL (igGroupDescP t) doc with
  | zero =>
    rw [(addLastL_cnt t _ doc).1 hcnt]
    rw [if_neg (by omega)]
    exact appendGroupL_first _ doc hone
  | succ c =>
    rw [(addLastL_cnt t _ doc).2 (by omega)]
    rw [if_pos (by omega), hcnt]

/-- Document whose only ItemGroup has the named element as a nested
descendant, not as a child. -/
def docC4 : XDoc :=
  [.tag projChars []
    [.tag igChars []
      [.tag ['F'] []
        [.tag ['C'] [(incChars, ['a'])] []]]]]

/-- C4, counterexample: the selector test is :has(), which matches
descendants; on a document whose only ItemGroup contains the item type
only as a nested descendant, addItem appends to that group, while the
claim's child-element reading would create a new ItemGroup. -/
theorem addItem_placement_counterexample :
    addItem ['C'] ['b'] docC4 ≠
      addItemSpecP (igGroupChildP ['C']) ['C'] ['b'] docC4 := by
  decide

theorem addItem_placement_witness :
    cntProjL docC4 ≤ 1 ∧
    asRelativePath [['p'], ['f']] [['p'], ['s'], ['x']] = ['s', '\\', 'x'] ∧
    addItem ['C'] (asRelativePath [['p'], ['f']] [['p'], ['s'], ['x']]) docC4 =
      addItemSpecP (igGroupDescP ['C']) ['C']
        (asRelativePath [['p'], ['f']] [['p'], ['s'], ['x']]) docC4 :=
  ⟨by decide, by decide,
    addItem_placement ['C'] [['p'], ['f']] [['p'], ['s'], ['x']] docC4 (by decide)⟩

/-! ## Claims C1 and C2: the open/serialize pipeline

Csproj.open parses the manifest bytes with cheerio's loadBuffer in xml
mode (htmlparser2 with xmlMode).  The fragment of that parser exercised
by project files is modelled here: text runs between angle brackets
(maximal, so adjacent text is merged), processing instructions and
declarations up to the closing bracket, and elements with double-quoted
attributes, an optional self-closing slash and a matching close tag.
The five predefined entities are decoded; inputs outside this fragment
(comments, CDATA, mismatched tags) are mapped to none. -/

/-- Whitespace as the tokenizer sees it. -/
def isXmlWs (c : Char) : Bool :=
  decide (c = ' ') || decide (c = '\t') || decide (c = '\n') || decide (c = '\r')

/-- A character that can be part of a tag or attribute name. -/
def isNameChar (c : Char) : Bool :=
  !(isXmlWs c || decide (c = '/') || decide (c = '>') || decide (c = '=') ||
    decide (c = '<') || decide (c = '"') || decide (c = '\''))

/-- Split off the longest leading run of name characters. -/
def takeName : List Char → List Char × List Char
  | [] => ([], [])
  | c :: r =>
    if isNameChar c then
      match takeName r with
      | (n, rest) => (c :: n, rest)
    else ([], c :: r)

/-- Skip leading whitespace inside a tag. -/
def skipXmlWs : List Char → List Char
  | [] => []
  | c :: r => if isXmlWs c then skipXmlWs r else c :: r

/-- Decode one entity reference after an ampersand: the five predefined
XML entities. -/
def decodeEntity : List Char → Option (Char × List Char)
  | 'a' :: 'm' :: 'p' :: ';' :: r => some ('&', r)
  | 'l' :: 't' :: ';' :: r => some ('<', r)
  | 'g' :: 't' :: ';' :: r => some ('>', r)
  | 'q' :: 'u' :: 'o' :: 't' :: ';' :: r => some ('"', r)
  | 'a' :: 'p' :: 'o' :: 's' :: ';' :: r => some ('\'', r)
  | _ => none

/-- Collect a text run up to the next angle bracket or the end of the
input, decoding entity references; the run is maximal, so the parser
never yields two adjacent text nodes. -/
def takeText : Nat → List Char → Option (List Char × List Char)
  | 0, _ => none
  | _ + 1, [] => some ([], [])
  | _ + 1, '<' :: r => some ([], '<' :: r)
  | fuel + 1, '&' :: r =>
    match decodeEntity r with
    | some (c, r2) => (takeText fuel r2).map (fun p => (c :: p.1, p.2))
    | none => none
  | fuel + 1, c :: r => (takeText fuel r).map (fun p => (c :: p.1, p.2))

/-- Read processing-instruction or declaration data up to the closing
angle bracket. -/
def takeUntilGt : List Char → Option (List Char × List Char)
  | [] => none
  | '>' :: r => some ([], r)
  | c :: r => (takeUntilGt r).map (fun p => (c :: p.1, p.2))

/-- Read a double-quoted attribute value, decoding entities. -/
def takeQuoted : Nat → List Char → Option (List Char × List Char)
  | 0, _ => none
  | _ + 1, [] => none
  | _ + 1, '"' :: r => some ([], r)
  | fuel + 1, '&' :: r =>
    match decodeEntity r with
    | some (c, r2) => (takeQuoted fuel r2).map (fun p => (c :: p.1, p.2))
    | none => none
  | fuel + 1, c :: r => (takeQuoted fuel r).map (fun p => (c :: p.1, p.2))

/-- Parse the attribute list of an open tag up to the closing bracket;
the boolean reports a self-closing tag. -/
def parseAttrs : Nat → List Char →
    Option (List (List Char × List Char) × Bool × List Char)
  | 0, _ => none
  | fuel + 1, cs =>
    match skipXmlWs cs with
    | '>' :: r => some ([], false, r)
    | '/' :: '>' :: r => some ([], true, r)
    | rest =>
      match takeName rest with
      | ([], _) => none
      | (n, rest2) =>
        match skipXmlWs rest2 with
        | '=' :: rest3 =>
          match skipXmlWs rest3 with
          | '"' :: rest4 =>
            match takeQuoted fuel rest4 with
            | some (v, rest5) =>
              (parseAttrs fuel rest5).map
                (fun t => ((n, v) :: t.1, t.2.1, t.2.2))
            | none => none
          | _ => none
        | _ => none

/-- Parse a sibling list: text runs, processing instructions and
elements, stopping at a closing tag or the end of the input.  An
element's children are parsed recursively and its close tag must carry
the same name. -/
def parseNodes : Nat → List Char → Option (List XNode × List Char)
  | 0, _ => none
  | _ + 1, [] => some ([], [])
  | _ + 1, '<' :: '/' :: r => some ([], '<' :: '/' :: r)
  | fuel + 1, '<' :: '?' :: r =>
    match takeUntilGt r with
    | some (d, rest) =>
      (parseNodes fuel rest).map (fun p => (.directive ('?' :: d) :: p.1, p.2))
    | none => none
  | fuel + 1, '<' :: '!' :: r =>
    match takeUntilGt r with
    | some (d, rest) =>
      (parseNodes fuel rest).map (fun p => (.directive ('!' :: d) :: p.1, p.2))
    | none => none
  | fuel + 1, '<' :: cs =>
    match takeName cs with
    | ([], _) => none
    | (n, rest) =>
      match parseAttrs fuel rest with
      | some (attrs, true, rest2) =>
        (parseNodes fuel rest2).map (fun p => (.tag n attrs [] :: p.1, p.2))
      | some (attrs, false, rest2) =>
        match parseNodes fuel rest2 with
        | some (ch, rest3) =>
          match rest3 with
          | '<' :: '/' :: rest4 =>
            match takeName (skipXmlWs rest4) with
            | (n2, rest5) =>
              if n2 = n then
                match skipXmlWs rest5 with
                | '>' :: rest6 =>
                  (parseNodes fuel rest6).map
                    (fun p => (.tag n attrs ch :: p.1, p.2))
                | _ => none
              else none
          | _ => none
        | none => none
      | none => none
  | fuel + 1, cs =>
    match takeText fuel cs with
    | some (t, rest) =>
      (parseNodes fuel rest).map (fun p => (.text t :: p.1, p.2))
    | none => none

/-- Parse a whole manifest: the node list of the document; all input
must be consumed. -/
def parseDoc (s : List Char) : Option XDoc :=
  match parseNodes (s.length + 2) s with
  | some (ns, []) => some ns
  | _ => none

/-- Drop the last element of a list when it is a whitespace-only text
node: the effect of trimBefore on the sibling run preceding a tag. -/
def stripLastWs : List XNode → List XNode
  | [] => []
  | [x] => if x.isWsText then [] else [x]
  | x :: y :: ys => x :: stripLastWs (y :: ys)

theorem indentStr_zero (i : Indent) : indentStr i 0 = i.nl := by
  simp [indentStr, repChars]

theorem wsOnly_repChars (s : List Char) (h : wsOnly s = true) :
    ∀ k, wsOnly (repChars s k) = true
  | 0 => rfl
  | k + 1 => by
    have ih := wsOnly_repChars s h k
    simp only [wsOnly, repChars] at h ih ⊢
    rw [List.replicate_succ, List.flatten_cons, List.all_append, h, ih]
    rfl

theorem wsOnly_indentStr (i : Indent) (hnl : wsOnly i.nl = true)
    (hws : wsOnly i.ws = true) (k : Nat) : wsOnly (indentStr i k) = true := by
  have h2 := wsOnly_repChars i.ws hws k
  simp only [wsOnly, indentStr] at hnl h2 ⊢
  rw [List.all_append, hnl, h2]
  rfl

theorem dropTrailWs_eq_nil (l : List XNode) (h : dropTrailWs l = []) :
    ∀ x ∈ l, x.isWsText = true := by
  induction l with
  | nil => intro x hx; cases hx
  | cons y ys ih =>
    rw [dropTrailWs] at h
    cases h2 : dropTrailWs ys with
    | nil =>
      rw [h2] at h
      by_cases hw : y.isWsText = true
      · intro x hx
        rcases List.mem_cons.mp hx with rfl | hx2
        · exact hw
        · exact ih h2 x hx2
      · rw [if_neg hw] at h; cases h
    | cons z zs => rw [h2] at h; cases h

theorem dropTrailWs_cons_stable (y : XNode) (xs : List XNode)
    (h : dropTrailWs xs = xs) (hne : xs ≠ []) :
    dropTrailWs (y :: xs) = y :: xs := by
  match xs, hne with
  | x :: xs', _ => rw [dropTrailWs, h]

theorem dropTrailWs_append_stable (ys xs : List XNode)
    (h : dropTrailWs xs = xs) (hne : xs ≠ []) :
    dropTrailWs (ys ++ xs) = ys ++ xs := by
  induction ys with
  | nil => simpa using h
  | cons y ys ih =>
    have h2 : ys ++ xs ≠ [] := by
      intro hc; exact hne (List.append_eq_nil.mp hc).2
    rw [List.cons_append, dropTrailWs_cons_stable y _ ih h2]

theorem dropTrailWs_snoc_ws (ys : List XNode) (x : XNode)
    (h : x.isWsText = true) :
    dropTrailWs (ys ++ [x]) = dropTrailWs ys := by
  induction ys with
  | nil => simp [dropTrailWs, h]
  | cons y ys ih => rw [List.cons_append, dropTrailWs, ih, dropTrailWs]

theorem dropTrailWs_tail_stable (x : XNode) (xs : List XNode)
    (h : dropTrailWs (x :: xs) = x :: xs) : dropTrailWs xs = xs := by
  rw [dropTrailWs] at h
  cases h2 : dropTrailWs xs with
  | nil =>
    rw [h2] at h
    by_cases hw : x.isWsText = true
    · rw [if_pos hw] at h; cases h
    · rw [if_neg hw] at h
      injection h with _ h5
  | cons z zs =>
    rw [h2] at h
    injection h with _ h5

theorem dropTrailWs_idem (l : List XNode) :
    dropTrailWs (dropTrailWs l) = dropTrailWs l := by
  induction l with
  | nil => rfl
  | cons x xs ih =>
    rw [dropTrailWs]
    cases h2 : dropTrailWs xs with
    | nil =>
      by_cases hw : x.isWsText = true
      · rw [if_pos hw]; rfl
      · rw [if_neg hw]; simp [dropTrailWs, hw]
    | cons z zs =>
      rw [h2] at ih
      exact dropTrailWs_cons_stable x _ ih (by simp)

theorem prettyList_ne_nil (i : Indent) :
    ∀ d l, l ≠ [] → prettyList i d l ≠ [] := by
  refine prettyCases i (fun d l => l ≠ [] → prettyList i d l ≠ []) ?_ ?_ ?_ ?_ ?_
  · intro d h; exact absurd rfl h
  · intro d t n a ch rest ih _
    rw [prettyList_text_tag]
    by_cases hw : wsOnly t = true
    · rw [if_pos hw]; exact ih (by simp)
    · rw [if_neg hw]; simp
  · intro d t rest hne ih _
    rw [prettyList_text i d t rest hne]; simp
  · intro d s rest ih _
    rw [prettyList_directive]; simp
  · intro d n a ch rest ihc ihr _
    rw [prettyList_tag]; simp

/-- The head of a node list is not an element. -/
def headNonTag : List XNode → Bool
  | [] => true
  | x :: _ => ! x.isTag

theorem headNonTag_prettyList (i : Indent) (hwne : i.ws ≠ []) :
    ∀ d l, headNonTag (prettyList i d l) = true := by
  refine prettyCases i (fun d l => headNonTag (prettyList i d l) = true) ?_ ?_ ?_ ?_ ?_
  · intro d; rfl
  · intro d t n a ch rest ih
    rw [prettyList_text_tag]
    by_cases hw : wsOnly t = true
    · rw [if_pos hw]; exact ih
    · rw [if_neg hw]; rfl
  · intro d t rest hne ih
    rw [prettyList_text i d t rest hne]; rfl
  · intro d s rest ih
    rw [prettyList_directive]; rfl
  · intro d n a ch rest ihc ihr
    rw [prettyList_tag]
    unfold preTag
    rw [if_pos hwne]
    rfl

theorem prettyList_not_tag_head (i : Indent) (hwne : i.ws ≠ []) (d : Nat)
    (l : List XNode) :
    ∀ n a ch r2, prettyList i d l ≠ XNode.tag n a ch :: r2 := by
  intro n a ch r2 hc
  have h := headNonTag_prettyList i hwne d l
  rw [hc] at h
  simp [headNonTag, XNode.isTag] at h

theorem prettyList_noTag (i : Indent) :
    ∀ d l, hasElemAmong l = false → prettyList i d l = l := by
  refine prettyCases i
    (fun d l => hasElemAmong l = false → prettyList i d l = l) ?_ ?_ ?_ ?_ ?_
  · intro d _; rfl
  · intro d t n a ch rest _ h
    exfalso
    simp [hasElemAmong, XNode.isTag] at h
  · intro d t rest hne ih h
    simp only [hasElemAmong, List.any_cons, Bool.or_eq_false_iff] at h
    rw [prettyList_text i d t rest hne, ih h.2]
  · intro d s rest ih h
    simp only [hasElemAmong, List.any_cons, Bool.or_eq_false_iff] at h
    rw [prettyList_directive, ih h.2]
  · intro d n a ch rest _ _ h
    exfalso
    simp [hasElemAmong, XNode.isTag] at h

theorem prettyList_snoc_text (i : Indent) (t : List Char) :
    ∀ d l, prettyList i d (l ++ [.text t]) = prettyList i d l ++ [.text t] := by
  refine prettyCases i (fun d l =>
    prettyList i d (l ++ [.text t]) = prettyList i d l ++ [.text t]) ?_ ?_ ?_ ?_ ?_
  · intro d
    rw [List.nil_append, prettyList_nil, List.nil_append,
      prettyList_text i d t [] (by intro n a ch r2 hc; cases hc), prettyList_nil]
  · intro d t0 n a ch rest ih
    have ih2 : prettyList i d (XNode.tag n a ch :: (rest ++ [XNode.text t])) =
        prettyList i d (XNode.tag n a ch :: rest) ++ [XNode.text t] := by
      rw [← List.cons_append]; exact ih
    rw [List.cons_append, List.cons_append, prettyList_text_tag,
      prettyList_text_tag]
    by_cases hw : wsOnly t0 = true
    · rw [if_pos hw, if_pos hw, ih2]
    · rw [if_neg hw, if_neg hw, ih2, List.cons_append]
  · intro d t0 rest hne ih
    have hne2 : ∀ n a ch r2,
        rest ++ [XNode.text t] ≠ XNode.tag n a ch :: r2 := by
      intro n a ch r2 hc
      match rest, hc with
      | [], hc => cases hc
      | r0 :: rs, hc =>
        rw [List.cons_append] at hc
        injection hc with h1 h2
        exact hne n a ch rs (by rw [h1])
    rw [List.cons_append, prettyList_text i d t0 _ hne2,
      prettyList_text i d t0 rest hne, ih, List.cons_append]
  · intro d s rest ih
    rw [List.cons_append, prettyList_directive, prettyList_directive, ih,
      List.cons_append]
  · intro d n a ch rest ihc ihr
    rw [List.cons_append, prettyList_tag, prettyList_tag, ihr,
      List.append_assoc, List.cons_append]

theorem hasElemAmong_prettyList (i : Indent) :
    ∀ d l, hasElemAmong (prettyList i d l) = hasElemAmong l := by
  refine prettyCases i
    (fun d l => hasElemAmong (prettyList i d l) = hasElemAmong l) ?_ ?_ ?_ ?_ ?_
  · intro d; rfl
  · intro d t n a ch rest ih
    rw [prettyList_text_tag]
    by_cases hw : wsOnly t = true
    · rw [if_pos hw, ih]
      simp [hasElemAmong, XNode.isTag]
    · rw [if_neg hw]
      simp only [hasElemAmong, List.any_cons] at ih ⊢
      rw [ih]
  · intro d t rest hne ih
    rw [prettyList_text i d t rest hne]
    simp only [hasElemAmong, List.any_cons] at ih ⊢
    rw [ih]
  · intro d s rest ih
    rw [prettyList_directive]
    simp only [hasElemAmong, List.any_cons] at ih ⊢
    rw [ih]
  · intro d n a ch rest ihc ihr
    rw [prettyList_tag]
    simp [hasElemAmong, XNode.isTag, List.any_append]

theorem dropTrailWs_prettyList (i : Indent) :
    ∀ d l, dropTrailWs l = l →
      dropTrailWs (prettyList i d l) = prettyList i d l := by
  refine prettyCases i (fun d l => dropTrailWs l = l →
    dropTrailWs (prettyList i d l) = prettyList i d l) ?_ ?_ ?_ ?_ ?_
  · intro d _; rfl
  · intro d t n a ch rest ih h
    have h2 := dropTrailWs_tail_stable _ _ h
    rw [prettyList_text_tag]
    by_cases hw : wsOnly t = true
    · rw [if_pos hw]; exact ih h2
    · rw [if_neg hw]
      exact dropTrailWs_cons_stable _ _ (ih h2) (prettyList_ne_nil i d _ (by simp))
  · intro d t rest hne ih h
    match rest, hne, ih, h with
    | [], hne, _, h =>
      rw [prettyList_text i d t [] hne, prettyList_nil]
      exact h
    | r0 :: rs, hne, ih, h =>
      have h2 := dropTrailWs_tail_stable _ _ h
      rw [prettyList_text i d t _ hne]
      exact dropTrailWs_cons_stable _ _ (ih h2) (prettyList_ne_nil i d _ (by simp))
  · intro d s rest ih h
    match rest, ih, h with
    | [], _, h =>
      rw [prettyList_directive, prettyList_nil]
      exact h
    | r0 :: rs, ih, h =>
      have h2 := dropTrailWs_tail_stable _ _ h
      rw [prettyList_directive]
      exact dropTrailWs_cons_stable _ _ (ih h2) (prettyList_ne_nil i d _ (by simp))
  · intro d n a ch rest ihc ihr h
    rw [prettyList_tag]
    match rest, ihr, h with
    | [], _, _ =>
      rw [prettyList_nil]
      refine dropTrailWs_append_stable _ _ ?_ (by simp)
      simp [dropTrailWs, XNode.isWsText]
    | r0 :: rs, ihr, h =>
      have h2 := dropTrailWs_tail_stable _ _ h
      have h3 := ihr h2
      refine dropTrailWs_append_stable _ _ ?_ (by simp)
      exact dropTrailWs_cons_stable _ _ h3 (prettyList_ne_nil i d _ (by simp))

/-- The prettify loop is idempotent on sibling lists when the
indentation components are whitespace and the per-level unit is
nonempty: a second pass removes exactly the indentation texts it
re-inserts. -/
theorem prettyList_idem (i : Indent) (hnl : wsOnly i.nl = true)
    (hws : wsOnly i.ws = true) (hwne : i.ws ≠ []) :
    ∀ d l, prettyList i d (prettyList i d l) = prettyList i d l := by
  refine prettyCases i
    (fun d l => prettyList i d (prettyList i d l) = prettyList i d l) ?_ ?_ ?_ ?_ ?_
  · intro d; rfl
  · intro d t n a ch rest ih
    rw [prettyList_text_tag]
    by_cases hw : wsOnly t = true
    · rw [if_pos hw]; exact ih
    · rw [if_neg hw]
      rw [prettyList_text i d t _ (prettyList_not_tag_head i hwne d _), ih]
  · intro d t rest hne ih
    rw [prettyList_text i d t rest hne]
    rw [prettyList_text i d t _ (prettyList_not_tag_head i hwne d rest), ih]
  · intro d s rest ih
    rw [prettyList_directive, prettyList_directive, ih]
  · intro d n a ch rest ihc ihr
    have hpre : preTag i d = [XNode.text (indentStr i d)] := by
      unfold preTag; rw [if_pos hwne]
    have hwsind : (XNode.text (indentStr i d)).isWsText = true := by
      simp [XNode.isWsText, wsOnly_indentStr i hnl hws d]
    have hfix : prettyList i (d + 1)
        (childPrep i d (prettyList i (d + 1) (childPrep i d ch))) =
        prettyList i (d + 1) (childPrep i d ch) := by
      by_cases hE : hasElemAmong (dropTrailWs ch) = true
      · have hcp : childPrep i d ch =
            dropTrailWs ch ++ [XNode.text (indentStr i d)] := by
          simp only [childPrep]
          rw [if_pos ⟨hwne, hE⟩]
        have hch1 : prettyList i (d + 1) (childPrep i d ch) =
            prettyList i (d + 1) (dropTrailWs ch) ++
              [XNode.text (indentStr i d)] := by
          rw [hcp, prettyList_snoc_text]
        have hdt : dropTrailWs (prettyList i (d + 1) (childPrep i d ch)) =
            prettyList i (d + 1) (dropTrailWs ch) := by
          rw [hch1, dropTrailWs_snoc_ws _ _ hwsind,
            dropTrailWs_prettyList i (d + 1) _ (dropTrailWs_idem ch)]
        have hEE : hasElemAmong
            (dropTrailWs (prettyList i (d + 1) (childPrep i d ch))) = true := by
          rw [hdt, hasElemAmong_prettyList]
          exact hE
        have hcp2 : childPrep i d (prettyList i (d + 1) (childPrep i d ch)) =
            prettyList i (d + 1) (childPrep i d ch) := by
          generalize hX : prettyList i (d + 1) (childPrep i d ch) = X at hdt hEE hch1
          simp only [childPrep]
          rw [if_pos ⟨hwne, hEE⟩, hdt, hch1]
        rw [hcp2, ihc]
      · have hEf : hasElemAmong (dropTrailWs ch) = false :=
          Bool.not_eq_true _ ▸ eq_false_of_ne_true hE
        have hcp : childPrep i d ch = dropTrailWs ch := by
          simp only [childPrep]
          rw [if_neg (by intro hc; exact hE hc.2), List.append_nil]
        have hch1 : prettyList i (d + 1) (childPrep i d ch) = dropTrailWs ch := by
          rw [hcp, prettyList_noTag i (d + 1) _ hEf]
        have hcp2 : childPrep i d (prettyList i (d + 1) (childPrep i d ch)) =
            dropTrailWs ch := by
          rw [hch1]
          simp only [childPrep]
          rw [if_neg (by
            intro hc
            rw [dropTrailWs_idem ch] at hc
            exact hE hc.2), List.append_nil, dropTrailWs_idem]
        rw [hcp2, hch1, prettyList_noTag i (d + 1) _ hEf]
    rw [prettyList_tag i d n a ch rest, hpre, List.cons_append, List.nil_append,
      prettyList_text_tag, if_pos (wsOnly_indentStr i hnl hws d),
      prettyList_tag, hpre, hfix, ihr, List.cons_append, List.nil_append]

/-- The prettify loop over a no-element prefix followed by a tag: the
prefix is kept except that a whitespace text standing right before the
tag (the sibling removed by trimBefore) is dropped. -/
theorem prettyList_decomp (i : Indent) (d : Nat) (n : List Char)
    (a : List (List Char × List Char)) (ch : List XNode) :
    ∀ (xs rest : List XNode), hasElemAmong xs = false →
      prettyList i d (xs ++ .tag n a ch :: rest) =
        stripLastWs xs ++
          (preTag i d ++ .tag n a (prettyList i (d + 1) (childPrep i d ch)) ::
            prettyList i d rest)
  | [], rest, _ => by
    rw [List.nil_append, prettyList_tag]
    simp [stripLastWs]
  | [x], rest, h => by
    simp only [hasElemAmong, List.any_cons, List.any_nil, Bool.or_false,
      Bool.or_eq_false_iff] at h
    match x, h with
    | .text t, _ =>
      rw [List.cons_append, List.nil_append, prettyList_text_tag, prettyList_tag]
      by_cases hw : wsOnly t = true
      · rw [if_pos hw]
        simp [stripLastWs, XNode.isWsText, hw]
      · rw [if_neg hw]
        simp [stripLastWs, XNode.isWsText, hw]
    | .directive s, _ =>
      rw [List.cons_append, List.nil_append, prettyList_directive, prettyList_tag]
      simp [stripLastWs, XNode.isWsText]
  | x :: y :: ys, rest, h => by
    have hy : (y :: ys).any XNode.isTag = false := by
      simp only [hasElemAmong, List.any_cons, Bool.or_eq_false_iff] at h
      simp only [List.any_cons, Bool.or_eq_false_iff]
      exact h.2
    have hrec := prettyList_decomp i d n a ch (y :: ys) rest hy
    have hytag : y.isTag = false := by
      simp only [List.any_cons, Bool.or_eq_false_iff] at hy
      exact hy.1
    have hne : ∀ n2 a2 ch2 r2,
        (y :: ys) ++ XNode.tag n a ch :: rest ≠ XNode.tag n2 a2 ch2 :: r2 := by
      intro n2 a2 ch2 r2 hc
      rw [List.cons_append] at hc
      injection hc with h1 _
      rw [h1] at hytag
      simp [XNode.isTag] at hytag
    match x, h with
    | .text t, _ =>
      rw [List.cons_append, prettyList_text i d t _ hne, hrec]
      rw [stripLastWs, List.cons_append]
    | .directive s, _ =>
      rw [List.cons_append, prettyList_directive, hrec]
      rw [stripLastWs, List.cons_append]
    | .tag n2 a2 ch2, h =>
      simp only [hasElemAmong, List.any_cons, Bool.or_eq_false_iff,
        XNode.isTag] at h
      exact absurd h.1 (by simp)

theorem isProjTag_false_of_noProj (x : XNode) (h : hasProjN x = false) :
    isProjTag x = false := by
  match x with
  | .text _ => rfl
  | .directive _ => rfl
  | .tag n a ch =>
    rw [hasProjN, Bool.or_eq_false_iff] at h
    rw [isProjTag]
    exact h.1

mutual

theorem emptyProjN_noProj : ∀ x : XNode, hasProjN x = false → emptyProjN x = x
  | .text _, _ => rfl
  | .directive _, _ => rfl
  | .tag n a ch, h => by
    rw [hasProjN, Bool.or_eq_false_iff] at h
    rw [emptyProjN, if_neg (by simpa using h.1), emptyProjL_noProj ch h.2]

theorem emptyProjL_noProj : ∀ l : List XNode, hasProjL l = false → emptyProjL l = l
  | [], _ => rfl
  | x :: rest, h => by
    rw [hasProjL, Bool.or_eq_false_iff] at h
    rw [emptyProjL, emptyProjN_noProj x h.1, emptyProjL_noProj rest h.2]

end

mutual

theorem insNlN_noProj (nl : List Char) :
    ∀ x : XNode, hasProjN x = false → insNlN nl x = x
  | .text _, _ => rfl
  | .directive _, _ => rfl
  | .tag n a ch, h => by
    rw [hasProjN, Bool.or_eq_false_iff] at h
    rw [insNlN, insNlL_noProj nl ch h.2]

theorem insNlL_noProj (nl : List Char) :
    ∀ l : List XNode, hasProjL l = false → insNlL nl l = l
  | [], _ => rfl
  | x :: rest, h => by
    rw [hasProjL, Bool.or_eq_false_iff] at h
    rw [insNlL, if_neg (by
        intro hc
        rw [isProjTag_false_of_noProj x h.1] at hc
        cases hc),
      insNlN_noProj nl x h.1, insNlL_noProj nl rest h.2]

end

mutual

theorem trimAfterProjN_noProj :
    ∀ x : XNode, hasProjN x = false → trimAfterProjN x = (x, false)
  | .text _, _ => rfl
  | .directive _, _ => rfl
  | .tag n a ch, h => by
    rw [hasProjN, Bool.or_eq_false_iff] at h
    rw [trimAfterProjN, trimAfterProjL_noProj ch h.2]

theorem trimAfterProjL_noProj :
    ∀ l : List XNode, hasProjL l = false → trimAfterProjL l = (l, false)
  | [], _ => rfl
  | x :: rest, h => by
    rw [hasProjL, Bool.or_eq_false_iff] at h
    rw [trimAfterProjL, if_neg (by
        intro hc
        rw [isProjTag_false_of_noProj x h.1] at hc
        cases hc),
      trimAfterProjN_noProj x h.1, trimAfterProjL_noProj rest h.2]

end

mutual

theorem projsElemFreeN_noProj :
    ∀ x : XNode, hasProjN x = false → projsElemFreeN x = true
  | .text _, _ => rfl
  | .directive _, _ => rfl
  | .tag n a ch, h => by
    rw [hasProjN, Bool.or_eq_false_iff] at h
    rw [projsElemFreeN, projsElemFreeL_noProj ch h.2]
    have hne : n ≠ projChars := by simpa using h.1
    simp [hne]

theorem projsElemFreeL_noProj :
    ∀ l : List XNode, hasProjL l = false → projsElemFreeL l = true
  | [], _ => rfl
  | x :: rest, h => by
    rw [hasProjL, Bool.or_eq_false_iff] at h
    rw [projsElemFreeL, projsElemFreeN_noProj x h.1,
      projsElemFreeL_noProj rest h.2]
    rfl

end

theorem hasProjL_append (a b : List XNode) :
    hasProjL (a ++ b) = (hasProjL a || hasProjL b) := by
  induction a with
  | nil => rfl
  | cons x xs ih => rw [List.cons_append, hasProjL, hasProjL, ih, Bool.or_assoc]

theorem projsElemFreeL_append (a b : List XNode) :
    projsElemFreeL (a ++ b) = (projsElemFreeL a && projsElemFreeL b) := by
  induction a with
  | nil => rfl
  | cons x xs ih =>
    rw [List.cons_append, projsElemFreeL, projsElemFreeL, ih, Bool.and_assoc]

theorem emptyProjL_append (a b : List XNode) :
    emptyProjL (a ++ b) = emptyProjL a ++ emptyProjL b := by
  induction a with
  | nil => rfl
  | cons x xs ih => rw [List.cons_append, emptyProjL, ih, emptyProjL, List.cons_append]

theorem insNlL_append (nl : List Char) (a b : List XNode) :
    insNlL nl (a ++ b) = insNlL nl a ++ insNlL nl b := by
  induction a with
  | nil => rfl
  | cons x xs ih =>
    rw [List.cons_append, insNlL, insNlL]
    by_cases hp : isProjTag x = true
    · rw [if_pos hp, if_pos hp, ih, List.cons_append, List.cons_append]
    · rw [if_neg hp, if_neg hp, ih, List.cons_append]

theorem trimAfterProjL_atProj (A : List XNode) (a : List (List Char × List Char))
    (ch B : List XNode) (h : hasProjL A = false) :
    trimAfterProjL (A ++ .tag projChars a ch :: B) =
      (A ++ .tag projChars a ch :: dropLeadWs B, true) := by
  induction A with
  | nil =>
    rw [List.nil_append, trimAfterProjL,
      if_pos (by rw [isProjTag]; simp), List.nil_append]
  | cons x xs ih =>
    rw [hasProjL, Bool.or_eq_false_iff] at h
    rw [List.cons_append, trimAfterProjL, if_neg (by
        intro hc
        rw [isProjTag_false_of_noProj x h.1] at hc
        cases hc),
      trimAfterProjN_noProj x h.1, ih h.2, List.cons_append]

theorem insNlL_atProj (nl : List Char) (A : List XNode)
    (a : List (List Char × List Char)) (ch B : List XNode)
    (hA : hasProjL A = false) (hch : hasProjL ch = false)
    (hB : hasProjL B = false) :
    insNlL nl (A ++ .tag projChars a ch :: B) =
      A ++ .tag projChars a ch :: .text nl :: B := by
  rw [insNlL_append, insNlL_noProj nl A hA, insNlL,
    if_pos (by rw [isProjTag]; simp), insNlN, insNlL_noProj nl ch hch,
    insNlL_noProj nl B hB]

theorem hasProjL_of_noElem (l : List XNode) (h : hasElemAmong l = false) :
    hasProjL l = false := by
  induction l with
  | nil => rfl
  | cons x xs ih =>
    simp only [hasElemAmong, List.any_cons, Bool.or_eq_false_iff] at h
    have h2 : hasElemAmong xs = false := h.2
    rw [hasProjL, ih h2, Bool.or_false]
    match x, h.1 with
    | .text _, _ => rfl
    | .directive _, _ => rfl
    | .tag n2 a2 ch2, h1 => simp [XNode.isTag] at h1

theorem hasProjL_dropTrailWs (l : List XNode) :
    hasProjL (dropTrailWs l) = hasProjL l := by
  induction l with
  | nil => rfl
  | cons x xs ih =>
    rw [dropTrailWs]
    cases h2 : dropTrailWs xs with
    | nil =>
      rw [h2] at ih
      have hxs : hasProjL xs = false := by rw [← ih]; rfl
      rw [hasProjL, hxs, Bool.or_false]
      by_cases hw : x.isWsText = true
      · rw [if_pos hw]
        match x, hw with
        | .text t, _ => rfl
      · rw [if_neg hw, hasProjL, hasProjL, Bool.or_false]
    | cons z zs =>
      rw [h2] at ih
      show (hasProjN x || hasProjL (z :: zs)) = (hasProjN x || hasProjL xs)
      rw [ih]

theorem hasProjL_childPrep (i : Indent) (d : Nat) (ch : List XNode) :
    hasProjL (childPrep i d ch) = hasProjL ch := by
  simp only [childPrep]
  by_cases hc : i.ws ≠ [] ∧ hasElemAmong (dropTrailWs ch) = true
  · rw [if_pos hc, hasProjL_append, hasProjL_dropTrailWs]
    simp [hasProjL, hasProjN]
  · rw [if_neg hc, List.append_nil, hasProjL_dropTrailWs]

theorem hasProjL_prettyList (i : Indent) :
    ∀ d l, hasProjL (prettyList i d l) = hasProjL l := by
  refine prettyCases i
    (fun d l => hasProjL (prettyList i d l) = hasProjL l) ?_ ?_ ?_ ?_ ?_
  · intro d; rfl
  · intro d t n a ch rest ih
    rw [prettyList_text_tag]
    by_cases hw : wsOnly t = true
    · rw [if_pos hw, ih]
      rfl
    · rw [if_neg hw]
      show (hasProjN (XNode.text t) ||
          hasProjL (prettyList i d (XNode.tag n a ch :: rest))) =
        (hasProjN (XNode.text t) || hasProjL (XNode.tag n a ch :: rest))
      rw [ih]
  · intro d t rest hne ih
    rw [prettyList_text i d t rest hne, hasProjL, ih, hasProjL]
  · intro d s rest ih
    rw [prettyList_directive, hasProjL, ih, hasProjL]
  · intro d n a ch rest ihc ihr
    rw [prettyList_tag, hasProjL_append]
    have hp : hasProjL (preTag i d) = false := by
      unfold preTag
      by_cases hc : i.ws ≠ [] <;> simp [hc, hasProjL, hasProjN]
    rw [hp, Bool.false_or, hasProjL, hasProjL, hasProjN, hasProjN, ihc, ihr,
      hasProjL_childPrep]

theorem hasElemAmong_stripLastWs :
    ∀ xs : List XNode, hasElemAmong xs = false →
      hasElemAmong (stripLastWs xs) = false
  | [], _ => rfl
  | [x], h => by
    rw [stripLastWs]
    by_cases hw : x.isWsText = true
    · rw [if_pos hw]; rfl
    · rw [if_neg hw]; exact h
  | x :: y :: ys, h => by
    simp only [hasElemAmong, List.any_cons, Bool.or_eq_false_iff] at h
    have h2 := hasElemAmong_stripLastWs (y :: ys) (by
      simp only [hasElemAmong, List.any_cons, Bool.or_eq_false_iff]
      exact h.2)
    rw [stripLastWs]
    simp only [hasElemAmong, List.any_cons, Bool.or_eq_false_iff]
    constructor
    · exact h.1
    · simpa [hasElemAmong] using h2

theorem hasElemAmong_dropLeadWs (l : List XNode) (h : hasElemAmong l = false) :
    hasElemAmong (dropLeadWs l) = false := by
  match l with
  | [] => rfl
  | x :: xs =>
    rw [dropLeadWs]
    by_cases hw : x.isWsText = true
    · rw [if_pos hw]
      simp only [hasElemAmong, List.any_cons, Bool.or_eq_false_iff] at h
      exact h.2
    · rw [if_neg hw]; exact h

theorem projsElemFreeN_projTag (a : List (List Char × List Char))
    (ch : List XNode) :
    projsElemFreeN (.tag projChars a ch) =
      (! hasElemAmong ch && projsElemFreeL ch) := by
  rw [projsElemFreeN]
  simp

theorem hasElemAmong_childPrep (i : Indent) (d : Nat) (ch : List XNode) :
    hasElemAmong (childPrep i d ch) = hasElemAmong (dropTrailWs ch) := by
  simp only [childPrep]
  by_cases hc : i.ws ≠ [] ∧ hasElemAmong (dropTrailWs ch) = true
  · rw [if_pos hc]
    simp [hasElemAmong, List.any_append, XNode.isTag]
  · rw [if_neg hc, List.append_nil]

/-- The prepared child list of an already reformatted child list is
itself: the closing indentation is the trailing whitespace text the
second trimEnd removes and re-appends. -/
theorem childPrep_fix (i : Indent) (hnl : wsOnly i.nl = true)
    (hws : wsOnly i.ws = true) (hwne : i.ws ≠ []) (d : Nat) (ch : List XNode)
    (hE : hasElemAmong (dropTrailWs ch) = true) :
    childPrep i d (prettyList i (d + 1) (childPrep i d ch)) =
      prettyList i (d + 1) (childPrep i d ch) ∧
    hasElemAmong (dropTrailWs (prettyList i (d + 1) (childPrep i d ch))) =
      true := by
  have hwsind : (XNode.text (indentStr i d)).isWsText = true := by
    simp [XNode.isWsText, wsOnly_indentStr i hnl hws d]
  have hcp : childPrep i d ch =
      dropTrailWs ch ++ [XNode.text (indentStr i d)] := by
    simp only [childPrep]
    rw [if_pos ⟨hwne, hE⟩]
  have hch1 : prettyList i (d + 1) (childPrep i d ch) =
      prettyList i (d + 1) (dropTrailWs ch) ++ [XNode.text (indentStr i d)] := by
    rw [hcp, prettyList_snoc_text]
  have hdt : dropTrailWs (prettyList i (d + 1) (childPrep i d ch)) =
      prettyList i (d + 1) (dropTrailWs ch) := by
    rw [hch1, dropTrailWs_snoc_ws _ _ hwsind,
      dropTrailWs_prettyList i (d + 1) _ (dropTrailWs_idem ch)]
  have hEE : hasElemAmong
      (dropTrailWs (prettyList i (d + 1) (childPrep i d ch))) = true := by
    rw [hdt, hasElemAmong_prettyList]
    exact hE
  refine ⟨?_, hEE⟩
  generalize hX : prettyList i (d + 1) (childPrep i d ch) = X at hdt hEE hch1
  simp only [childPrep]
  rw [if_pos ⟨hwne, hEE⟩, hdt, hch1]

/-- Closed form of prettify on a document whose only element named
Project is a single root-level child and whose other root nodes are
texts and directives: the loop keeps the prefix except for the
whitespace text swallowed by trimBefore, puts the newline text before
Project, reformats or clears its children, and the final steps insert
the newline after it. -/
theorem prettifyF_single (i : Indent) (a : List (List Char × List Char))
    (dpre ch dpost : List XNode)
    (hnl : wsOnly i.nl = true) (hws : wsOnly i.ws = true) (hwne : i.ws ≠ [])
    (hpre : hasElemAmong dpre = false) (hpost : hasElemAmong dpost = false)
    (hchp : hasProjL ch = false) :
    prettifyF i (dpre ++ .tag projChars a ch :: dpost) =
      some (stripLastWs dpre ++ .text i.nl ::
        (if hasElemAmong (dropTrailWs ch) = true then
          XNode.tag projChars a (prettyList i (0 + 1) (childPrep i 0 ch))
        else XNode.tag projChars a []) ::
        .text i.nl :: dropLeadWs dpost) := by
  have hdec := prettyList_decomp i 0 projChars a ch dpre dpost hpre
  have hpreTag : preTag i 0 = [XNode.text i.nl] := by
    unfold preTag
    rw [if_pos hwne, indentStr_zero]
  have hpost2 : prettyList i 0 dpost = dpost := prettyList_noTag i 0 dpost hpost
  rw [hpreTag, hpost2, List.cons_append, List.nil_append] at hdec
  have hA0 : hasProjL (stripLastWs dpre) = false :=
    hasProjL_of_noElem _ (hasElemAmong_stripLastWs dpre hpre)
  have hD : hasProjL dpost = false := hasProjL_of_noElem dpost hpost
  have hch1p : hasProjL (prettyList i (0 + 1) (childPrep i 0 ch)) = false := by
    rw [hasProjL_prettyList, hasProjL_childPrep]
    exact hchp
  have hchE : hasElemAmong (prettyList i (0 + 1) (childPrep i 0 ch)) =
      hasElemAmong (dropTrailWs ch) := by
    rw [hasElemAmong_prettyList, hasElemAmong_childPrep]
  have hproj : hasProjL (stripLastWs dpre ++ XNode.text i.nl ::
      XNode.tag projChars a (prettyList i (0 + 1) (childPrep i 0 ch)) ::
      dpost) = true := by
    rw [hasProjL_append, hA0, Bool.false_or, hasProjL, hasProjL, hasProjN]
    simp
  have hAws : (XNode.text i.nl).isWsText = true := by
    simp [XNode.isWsText, hnl]
  have hA2 : hasProjL (stripLastWs dpre ++ [XNode.text i.nl]) = false := by
    rw [hasProjL_append, hA0, Bool.false_or]
    rfl
  have hDL : hasProjL (dropLeadWs dpost) = false :=
    hasProjL_of_noElem _ (hasElemAmong_dropLeadWs dpost hpost)
  simp only [prettifyF]
  rw [hdec, if_pos hproj]
  by_cases hE : hasElemAmong (dropTrailWs ch) = true
  · have hpef : projsElemFreeL (stripLastWs dpre ++ XNode.text i.nl ::
        XNode.tag projChars a (prettyList i (0 + 1) (childPrep i 0 ch)) ::
        dpost) = false := by
      rw [projsElemFreeL_append, projsElemFreeL, projsElemFreeL,
        projsElemFreeN_projTag, projsElemFreeN_noProj _ (by rfl : hasProjN
          (XNode.text i.nl) = false)]
      rw [hchE, hE]
      simp
    rw [if_neg (by rw [hpef]; exact Bool.false_ne_true)]
    have hre : stripLastWs dpre ++ XNode.text i.nl ::
        XNode.tag projChars a (prettyList i (0 + 1) (childPrep i 0 ch)) ::
        dpost = (stripLastWs dpre ++ [XNode.text i.nl]) ++
          XNode.tag projChars a (prettyList i (0 + 1) (childPrep i 0 ch)) ::
          dpost := by
      simp
    rw [hre, trimAfterProjL_atProj _ a _ dpost hA2]
    rw [insNlL_atProj i.nl _ a _ _ hA2 hch1p hDL]
    rw [if_pos hE]
    simp
  · have hEf : hasElemAmong (dropTrailWs ch) = false :=
      Bool.not_eq_true _ ▸ eq_false_of_ne_true hE
    have hpef : projsElemFreeL (stripLastWs dpre ++ XNode.text i.nl ::
        XNode.tag projChars a (prettyList i (0 + 1) (childPrep i 0 ch)) ::
        dpost) = true := by
      rw [projsElemFreeL_append, projsElemFreeL_noProj _ hA0, projsElemFreeL,
        projsElemFreeL, projsElemFreeN_projTag,
        projsElemFreeN_noProj _ (by rfl : hasProjN
          (XNode.text i.nl) = false),
        projsElemFreeL_noProj _ hch1p, projsElemFreeL_noProj dpost hD,
        hchE, hEf]
      rfl
    rw [if_pos (by rw [hpef])]
    have hemp : emptyProjL (stripLastWs dpre ++ XNode.text i.nl ::
        XNode.tag projChars a (prettyList i (0 + 1) (childPrep i 0 ch)) ::
        dpost) = (stripLastWs dpre ++ [XNode.text i.nl]) ++
          XNode.tag projChars a [] :: dpost := by
      rw [emptyProjL_append, emptyProjL_noProj _ hA0, emptyProjL,
        emptyProjL, emptyProjN_noProj _ (by rfl : hasProjN
          (XNode.text i.nl) = false),
        emptyProjL_noProj dpost hD, emptyProjN, if_pos rfl]
      simp
    rw [hemp, trimAfterProjL_atProj _ a _ dpost hA2]
    rw [insNlL_atProj i.nl _ a _ _ hA2 (by rfl) hDL]
    rw [if_neg (by rw [hEf]; exact Bool.false_ne_true)]
    simp

theorem stripLastWs_snoc_ws :
    ∀ (ys : List XNode) (x : XNode), x.isWsText = true →
      stripLastWs (ys ++ [x]) = ys
  | [], x, h => by simp [stripLastWs, h]
  | [y], x, h => by simp [stripLastWs, h]
  | y :: z :: zs, x, h => by
    have ih := stripLastWs_snoc_ws (z :: zs) x h
    rw [List.cons_append] at ih ⊢
    rw [List.cons_append, stripLastWs, ih]

/-- Reformatting is idempotent in place: prettify leaves its own output
unchanged, for whitespace indentation descriptors with a nonempty
per-level unit, on documents whose only Project element is a root-level
child with no further elements beside it at the root. -/
theorem prettifyF_idem (i : Indent) (a : List (List Char × List Char))
    (dpre ch dpost : List XNode) (c : XDoc)
    (hnl : wsOnly i.nl = true) (hws : wsOnly i.ws = true) (hwne : i.ws ≠ [])
    (hpre : hasElemAmong dpre = false) (hpost : hasElemAmong dpost = false)
    (hchp : hasProjL ch = false)
    (h : prettifyF i (dpre ++ .tag projChars a ch :: dpost) = some c) :
    prettifyF i c = some c := by
  rw [prettifyF_single i a dpre ch dpost hnl hws hwne hpre hpost hchp] at h
  have hAws : (XNode.text i.nl).isWsText = true := by
    simp [XNode.isWsText, hnl]
  have hpre2 : hasElemAmong (stripLastWs dpre ++ [XNode.text i.nl]) = false := by
    have h1 := hasElemAmong_stripLastWs dpre hpre
    simp [hasElemAmong, XNode.isTag] at h1 ⊢
    exact h1
  have hpost2 : hasElemAmong (XNode.text i.nl :: dropLeadWs dpost) = false := by
    have h1 := hasElemAmong_dropLeadWs dpost hpost
    simp [hasElemAmong, XNode.isTag] at h1 ⊢
    exact h1
  have hstrip : stripLastWs (stripLastWs dpre ++ [XNode.text i.nl]) =
      stripLastWs dpre := stripLastWs_snoc_ws _ _ hAws
  by_cases hE : hasElemAmong (dropTrailWs ch) = true
  · rw [if_pos hE] at h
    have hch1p : hasProjL (prettyList i (0 + 1) (childPrep i 0 ch)) = false := by
      rw [hasProjL_prettyList, hasProjL_childPrep]
      exact hchp
    have hc := Option.some.inj h
    have hsplit : stripLastWs dpre ++ XNode.text i.nl ::
        XNode.tag projChars a (prettyList i (0 + 1) (childPrep i 0 ch)) ::
        XNode.text i.nl :: dropLeadWs dpost
      = (stripLastWs dpre ++ [XNode.text i.nl]) ++
          XNode.tag projChars a (prettyList i (0 + 1) (childPrep i 0 ch)) ::
          (XNode.text i.nl :: dropLeadWs dpost) := by simp
    rw [← hc, hsplit,
      prettifyF_single i a _ _ _ hnl hws hwne hpre2 hpost2 hch1p]
    have hfix := childPrep_fix i hnl hws hwne 0 ch hE
    rw [hstrip, if_pos hfix.2, hfix.1, prettyList_idem i hnl hws hwne,
      dropLeadWs, if_pos hAws]
    simp
  · rw [if_neg hE] at h
    have hc := Option.some.inj h
    have hsplit : stripLastWs dpre ++ XNode.text i.nl ::
        XNode.tag projChars a [] ::
        XNode.text i.nl :: dropLeadWs dpost
      = (stripLastWs dpre ++ [XNode.text i.nl]) ++
          XNode.tag projChars a [] ::
          (XNode.text i.nl :: dropLeadWs dpost) := by simp
    rw [← hc, hsplit,
      prettifyF_single i a _ [] _ hnl hws hwne hpre2 hpost2 (by rfl)]
    rw [hstrip, if_neg (by decide), dropLeadWs, if_pos hAws]
    simp

/-- C2, amended: with a fixed indentation descriptor whose newline and
per-level unit are whitespace strings and whose unit is nonempty, on a
document whose only Project element is a single root-level child (any
texts and directives beside it at the root), the
serialize-reparse-serialize pipeline yields the same text as a single
serialize whenever reparsing the serialized output reproduces the
serialized tree.  Reformatting itself is idempotent on the tree; the
claim fails in general only because reparsing can merge text runs (see
the counterexample), or reject exotic trees entirely. -/
theorem serialize_reparse_idempotent (i : Indent)
    (a : List (List Char × List Char)) (dpre ch dpost : List XNode) (c : XDoc)
    (hnl : wsOnly i.nl = true) (hws : wsOnly i.ws = true) (hwne : i.ws ≠ [])
    (hpre : hasElemAmong dpre = false) (hpost : hasElemAmong dpost = false)
    (hchp : hasProjL ch = false)
    (h : prettifyF i (dpre ++ .tag projChars a ch :: dpost) = some c)
    (hpar : parseDoc (fixup (renderL false c)) = some c) :
    (serializeF i (dpre ++ .tag projChars a ch :: dpost)).bind
        (fun s => (parseDoc s).bind (fun d2 => serializeF i d2)) =
      serializeF i (dpre ++ .tag projChars a ch :: dpost) := by
  have hidem := prettifyF_idem i a dpre ch dpost c hnl hws hwne hpre hpost hchp h
  simp [serializeF, h, hidem, hpar]

/-- Document with mixed content: a Project holding a non-whitespace
text and an element. -/
def mixedDoc : XDoc :=
  [.tag projChars [] [.text ['a', 'b', 'c'], .tag ['X'] [] []]]

/-- A fixed indentation descriptor: newline and two spaces. -/
def indent2 : Indent := ⟨['\n'], [' ', ' ']⟩

/-- C2, counterexample: on the mixed-content document the pipeline is
not idempotent.  One pass yields "\n<Project>abc\n  <X />\n</Project>\n";
reparsing merges "abc" with the following indentation into one text
node, which trimBefore no longer removes, so the second pass inserts
indentation again and the texts differ. -/
theorem serialize_reparse_counterexample :
    (serializeF indent2 mixedDoc).bind
        (fun s => (parseDoc s).bind (fun d2 => serializeF indent2 d2)) ≠
      serializeF indent2 mixedDoc := by
  decide

/-- The reformatted tree of the one-element document under indent2. -/
def cWit : XDoc :=
  [.text ['\n'],
   .tag projChars [] [.text ['\n', ' ', ' '], .tag ['X'] [] [], .text ['\n']],
   .text ['\n']]

theorem serialize_reparse_idempotent_witness :
    (wsOnly indent2.nl = true ∧ wsOnly indent2.ws = true ∧ indent2.ws ≠ [] ∧
      hasElemAmong ([] : List XNode) = false ∧
      hasProjL [XNode.tag ['X'] [] []] = false ∧
      prettifyF indent2
        ([] ++ XNode.tag projChars [] [XNode.tag ['X'] [] []] :: []) =
          some cWit ∧
      parseDoc (fixup (renderL false cWit)) = some cWit) ∧
    (serializeF indent2
        ([] ++ XNode.tag projChars [] [XNode.tag ['X'] [] []] :: [])).bind
        (fun s => (parseDoc s).bind (fun d2 => serializeF indent2 d2)) =
      serializeF indent2
        ([] ++ XNode.tag projChars [] [XNode.tag ['X'] [] []] :: []) :=
  ⟨⟨by decide, by decide, by decide, by decide, by decide, by decide,
      by decide⟩,
    serialize_reparse_idempotent indent2 [] [] [XNode.tag ['X'] [] []] [] cWit
      (by decide) (by decide) (by decide) (by decide) (by decide) (by decide)
      (by decide) (by decide)⟩

/-- C1, amended: a canonical manifest reopens and reserializes to
byte-identical text provided the reformatted tree reparses to itself
and re-detection on it returns the indentation that produced it.  Both
provisos are real: re-detection changes whenever a node precedes the
Project element, because the newline inserted after the leading text
makes the second text node equal the first, and the detector then
falls back to the two-space unit (see the counterexample). -/
theorem open_serialize_canonical (i : Indent)
    (a : List (List Char × List Char)) (dpre ch dpost : List XNode) (c : XDoc)
    (hnl : wsOnly i.nl = true) (hws : wsOnly i.ws = true) (hwne : i.ws ≠ [])
    (hpre : hasElemAmong dpre = false) (hpost : hasElemAmong dpost = false)
    (hchp : hasProjL ch = false)
    (hdet0 : detectIndent (dpre ++ .tag projChars a ch :: dpost) = i)
    (h : prettifyF i (dpre ++ .tag projChars a ch :: dpost) = some c)
    (hdet : detectIndent c = i)
    (hpar : parseDoc (fixup (renderL false c)) = some c) :
    (serializeOpen (dpre ++ .tag projChars a ch :: dpost)).bind
        (fun t => (parseDoc t).bind (fun d1 => serializeOpen d1)) =
      serializeOpen (dpre ++ .tag projChars a ch :: dpost) := by
  have hidem := prettifyF_idem i a dpre ch dpost c hnl hws hwne hpre hpost hchp h
  simp [serializeOpen, serializeF, hdet0, hdet, h, hidem, hpar]

/-- A parsed manifest holding a processing instruction directly before
its Project element, which is indented with four spaces. -/
def piDoc : XDoc :=
  [.text ['\n'], .directive ['?', 'p', 'i', '?'],
   .tag projChars []
     [.text ['\n', ' ', ' ', ' ', ' '], .tag ['X'] [] [], .text ['\n']]]

/-- The manifest text that parses to piDoc. -/
def piSrc : List Char :=
  ['\n', '<', '?', 'p', 'i', '?', '>', '<', 'P', 'r', 'o', 'j', 'e', 'c', 't',
   '>', '\n', ' ', ' ', ' ', ' ', '<', 'X', ' ', '/', '>', '\n', '<', '/',
   'P', 'r', 'o', 'j', 'e', 'c', 't', '>']

/-- C1, counterexample: piDoc is a genuine parsed manifest; its
canonical pretty form (the text serialize produces for it) reopens to a
document whose first two text nodes are both the newline, so detection
falls back to the two-space unit instead of the four spaces that
produced the text, and serializing the reopened document yields
different bytes. -/
theorem open_serialize_canonical_counterexample :
    parseDoc piSrc = some piDoc ∧
    (serializeOpen piDoc).bind
        (fun t => (parseDoc t).bind (fun d1 => serializeOpen d1)) ≠
      serializeOpen piDoc := by
  constructor
  · decide
  · decide

/-- The reformatted tree of a minimal manifest: newline, empty
Project, newline. -/
def c1Wit : XDoc := [.text ['\n'], .tag projChars [] [], .text ['\n']]

theorem open_serialize_canonical_witness :
    (detectIndent ([XNode.text ['\n']] ++ XNode.tag projChars [] [] :: []) =
        (⟨['\n'], [' ', ' ']⟩ : Indent) ∧
      prettifyF ⟨['\n'], [' ', ' ']⟩
        ([XNode.text ['\n']] ++ XNode.tag projChars [] [] :: []) = some c1Wit ∧
      detectIndent c1Wit = (⟨['\n'], [' ', ' ']⟩ : Indent) ∧
      parseDoc (fixup (renderL false c1Wit)) = some c1Wit) ∧
    (serializeOpen
        ([XNode.text ['\n']] ++ XNode.tag projChars [] [] :: [])).bind
        (fun t => (parseDoc t).bind (fun d1 => serializeOpen d1)) =
      serializeOpen ([XNode.text ['\n']] ++ XNode.tag projChars [] [] :: []) :=
  ⟨⟨by decide, by decide, by decide, by decide⟩,
    open_serialize_canonical ⟨['\n'], [' ', ' ']⟩ [] [XNode.text ['\n']] [] []
      c1Wit (by decide) (by decide) (by decide) (by decide) (by decide)
      (by decide) (by decide) (by decide) (by decide) (by decide)⟩

end Semitone
